import Mathlib

/-!
# Simple-Go-Healthcheck-Tool: a verification development of `main.go`

The Go program reads a list of server addresses, probes every address with a
pool of ten goroutines, and folds the successful probe records into a nested
map `application -> version -> Report`.

Modelling conventions.

* Go strings are sequences of code points; strings that are only compared
  (application, version, URLs) are Lean `String`s, the file content handled by
  `readServerList` is a `List Char` so that trimming and splitting are
  structural.
* `int64` values are `Int`s.  The program performs no integer arithmetic on
  them, only the conversion `float64(x)`.
* `float64` is modelled by `Float64`: IEEE 754 binary64 with round to nearest,
  ties to even, signed zeros, infinities and NaN.
* A Go map is an association list without duplicate keys (`GoMap`); its
  iteration order is not observable in this development.  A map *value* (a
  reference that may be `nil`) is an `Option` of such a list.
* The goroutines of `fetchHealthChecks` are a transition system: one state, one
  action per goroutine, every interleaving a schedule of actions.
-/

namespace HealthCheckTool

/-! ## IEEE 754 binary64 -/

/-- A binary64 value: NaN, an infinity with its sign, or the finite number
`(-1)^neg * mant * 2^exp`.  Values produced by `Float64.ofRatio` have
`mant < 2^53`, and `2^52 ≤ mant` unless the value is zero or subnormal. -/
inductive Float64 where
  | nan : Float64
  | inf (neg : Bool) : Float64
  | fin (neg : Bool) (mant : Nat) (exp : Int) : Float64
  deriving DecidableEq, Repr

namespace Float64

/-- Is the value a number other than NaN and the infinities. -/
def isFinite : Float64 → Bool
  | fin _ _ _ => true
  | _ => false

/-- Number of binary digits of a natural number (`0` for `0`), by fuel. -/
def bitLenAux : Nat → Nat → Nat
  | 0, _ => 0
  | fuel + 1, n => if n = 0 then 0 else bitLenAux fuel (n / 2) + 1

/-- Number of binary digits of `n`. -/
def bitLen (n : Nat) : Nat := bitLenAux n n

/-- Integer quotient `n / d` rounded to nearest, ties to even. -/
def divNearestEven (n d : Nat) : Nat :=
  let q := n / d
  let r := n % d
  if 2 * r < d then q
  else if d < 2 * r then q + 1
  else if q % 2 = 0 then q else q + 1

/-- The quotient `n / (d * 2^e)` rounded to nearest, ties to even. -/
def scaledQuot (n d : Nat) (e : Int) : Nat :=
  match e with
  | Int.ofNat k => divNearestEven n (d * 2 ^ k)
  | Int.negSucc k => divNearestEven (n * 2 ^ (k + 1)) d

/-- Decides `n / d < 2^k` for naturals `n`, `d` (`d ≠ 0`) and an integer `k`. -/
def ratioBelowPow2 (n d : Nat) (k : Int) : Bool :=
  match k with
  | Int.ofNat j => decide (n < d * 2 ^ j)
  | Int.negSucc j => decide (n * 2 ^ (j + 1) < d)

/-- The exponent of the last significand bit of the binary64 nearest to
`n / d` (`n`, `d` nonzero): the significand gets 53 bits, but the exponent does
not go below the subnormal exponent `-1074`. -/
def roundExp (n d : Nat) : Int :=
  -- `2^(e0+52) ≤ n/d < 2^(e0+54)`: the 53-bit window starts at `e0` or `e0 + 1`
  let e0 : Int := (bitLen n : Int) - (bitLen d : Int) - 53
  let e1 : Int := if ratioBelowPow2 n d (e0 + 53) then e0 else e0 + 1
  max e1 (-1074)

/-- The binary64 with sign `neg`, rounded significand `m ≤ 2^53` and exponent
`e`: a significand rounded up to `2^53` is renormalised, an exponent beyond
`971` (a magnitude of `2^1024` or more) overflows to an infinity. -/
def pack (neg : Bool) (m : Nat) (e : Int) : Float64 :=
  if m = 0 then fin neg 0 0
  else if m = 2 ^ 53 then
    if 971 < e + 1 then inf neg else fin neg (2 ^ 52) (e + 1)
  else if 971 < e then inf neg
  else fin neg m e

/-- The binary64 nearest to `(-1)^neg * n / d` (`d ≠ 0`), ties to even. -/
def ofRatio (neg : Bool) (n d : Nat) : Float64 :=
  if n = 0 then fin neg 0 0
  else pack neg (scaledQuot n d (roundExp n d)) (roundExp n d)

/-- The Go conversion `float64(x)` of an integer. -/
def ofInt (x : Int) : Float64 :=
  ofRatio (decide (x < 0)) x.natAbs 1

/-- IEEE 754 division `x / y`. -/
def div : Float64 → Float64 → Float64
  | nan, _ => nan
  | _, nan => nan
  | inf _, inf _ => nan
  | inf s, fin t _ _ => inf (xor s t)
  | fin s _ _, inf t => fin (xor s t) 0 0
  | fin s m e, fin t m' e' =>
    if m' = 0 then
      if m = 0 then nan else inf (xor s t)
    else
      -- (m * 2^e) / (m' * 2^e') as a ratio of naturals
      let k : Int := e - e'
      match k with
      | Int.ofNat j => ofRatio (xor s t) (m * 2 ^ j) m'
      | Int.negSucc j => ofRatio (xor s t) m (m' * 2 ^ (j + 1))

end Float64

/-! ## Data model (`main.go` lines 13-30) -/

/-- The record decoded from one server's `/healthz` response. -/
structure HealthCheck where
  Application : String
  Version : String
  Uptime : Int
  RequestCount : Int
  ErrorCount : Int
  SuccessCount : Int
  deriving DecidableEq, Repr

/-- The zero value `HealthCheck{}`. -/
def HealthCheck.zero : HealthCheck := ⟨"", "", 0, 0, 0, 0⟩

/-- The aggregated leaf for one application version. -/
structure Report where
  Application : String
  Version : String
  SuccessRate : Float64
  deriving DecidableEq, Repr

/-- The zero value `Report{}`. -/
def Report.zero : Report := ⟨"", "", Float64.fin false 0 0⟩

/-- The number of concurrent workers. -/
def workerCount : Nat := 10

/-! ## Go maps -/

/-- The content of a Go map: key/value pairs; the operations below keep the
keys free of duplicates. -/
abbrev GoMap (κ ν : Type) := List (κ × ν)

namespace GoMap

variable {κ ν : Type} [DecidableEq κ]

/-- The lookup of `m[k]` with its presence: `none` when the key is absent. -/
def lookup : GoMap κ ν → κ → Option ν
  | [], _ => none
  | (k', v) :: rest, k => if k' = k then some v else lookup rest k

/-- The assignment `m[k] = v`: overwrites the entry of an existing key, adds
the entry otherwise. -/
def store : GoMap κ ν → κ → ν → GoMap κ ν
  | [], k, v => [(k, v)]
  | (k', v') :: rest, k, v =>
    if k' = k then (k, v) :: rest else (k', v') :: store rest k v

/-- The keys of the map. -/
def keys (m : GoMap κ ν) : List κ := m.map Prod.fst

end GoMap

/-- The inner map of the report: version to leaf. -/
abbrev VersionMap := GoMap String Report

/-- The type `map[string]map[string]Report`.  An inner map is a reference:
`none` is the `nil` map, `some m` a map made by `make`. -/
abbrev AggMap := GoMap String (Option VersionMap)

/-- The success rate of one record: `float64(SuccessCount) / float64(RequestCount)`
(`main.go` line 125). -/
def successRate (hc : HealthCheck) : Float64 :=
  Float64.div (Float64.ofInt hc.SuccessCount) (Float64.ofInt hc.RequestCount)

/-- One iteration of the loop of `aggregateResults` (`main.go` lines 117-126).
Go maps are references: the write `appVersions[hc.Version] = r` goes through
the map held by `agg`, which the value model stores back under the same key. -/
def aggregateStep (agg : AggMap) (hc : HealthCheck) : AggMap :=
  -- appVersions := agg[hc.Application]       (the zero value `nil` when absent)
  let appVersions : Option VersionMap := (agg.lookup hc.Application).getD none
  -- if appVersions == nil { appVersions = make(...); agg[hc.Application] = appVersions }
  let (appVersions, agg) : VersionMap × AggMap :=
    match appVersions with
    | none => ([], agg.store hc.Application (some []))
    | some m => (m, agg)
  -- r := appVersions[hc.Version]             (the zero Report when absent)
  let r : Report := (appVersions.lookup hc.Version).getD Report.zero
  let r := { r with Application := hc.Application }
  let r := { r with Version := hc.Version }
  let r := { r with SuccessRate := successRate hc }
  -- appVersions[hc.Version] = r
  agg.store hc.Application (some (appVersions.store hc.Version r))

/-- The state of `agg` after the loop has run over `results`, started from `agg`. -/
def aggregateLoop (agg : AggMap) (results : List HealthCheck) : AggMap :=
  results.foldl aggregateStep agg

/-- The function `aggregateResults` (`main.go` lines 114-129). -/
def aggregateResults (results : List HealthCheck) : AggMap :=
  aggregateLoop [] results

/-- The leaf `agg[a][v]` with its presence. -/
def reportAt (agg : AggMap) (a v : String) : Option Report :=
  match agg.lookup a with
  | some (some m) => m.lookup v
  | _ => none

/-- The number of leaves of the report. -/
def leafCount (agg : AggMap) : Nat :=
  (agg.map fun e => (e.2.getD []).length).sum

/-- The `(application, version)` key of a record. -/
def HealthCheck.key (hc : HealthCheck) : String × String :=
  (hc.Application, hc.Version)

/-- The leaf written for a record (`main.go` lines 123-125): all three fields
of `r` are assigned, so nothing of the previous leaf survives. -/
def leafOf (hc : HealthCheck) : Report :=
  ⟨hc.Application, hc.Version, successRate hc⟩

/-- The structural invariant of the report: keys are stored once, every
application key holds a non-nil, non-empty version map, and the leaf stored at
`[a][v]` names `a` and `v`. -/
def ReportInv (agg : AggMap) : Prop :=
  agg.keys.Nodup ∧
  ∀ a om, agg.lookup a = some om →
    ∃ m : VersionMap, om = some m ∧ m ≠ [] ∧ m.keys.Nodup ∧
      ∀ v r, m.lookup v = some r → r.Application = a ∧ r.Version = v

/-- Two reports have the same keys and the same leaves. -/
def sameReport (x y : AggMap) : Prop :=
  (∀ a, (x.lookup a).isSome = (y.lookup a).isSome) ∧
  ∀ a v, reportAt x a v = reportAt y a v

/-! ## `readServerList` (`main.go` lines 48-55) -/

/-- The predicate `unicode.IsSpace`, which `strings.TrimSpace` trims by: the
Latin-1 spaces `\t \n \v \f \r`, space, U+0085, U+00A0, and the code points
with the Unicode White_Space property above U+00FF. -/
def isSpace (c : Char) : Bool :=
  let n := c.toNat
  (9 ≤ n && n ≤ 13) || n = 0x20 || n = 0x85 || n = 0xA0 || n = 0x1680
    || (0x2000 ≤ n && n ≤ 0x200A) || n = 0x2028 || n = 0x2029 || n = 0x202F
    || n = 0x205F || n = 0x3000

/-- The function `strings.TrimSpace`: the string without its leading and
trailing white space. -/
def TrimSpace (s : List Char) : List Char :=
  ((s.dropWhile isSpace).reverse.dropWhile isSpace).reverse

/-- The function `strings.Split(s, sep)` for a one-character separator such as
`"\n"`: the substrings between the separators; one (empty) substring for the
empty string. -/
def Split : List Char → Char → List (List Char)
  | [], _ => [[]]
  | c :: cs, sep =>
    if c = sep then [] :: Split cs sep
    else
      match Split cs sep with
      | [] => [[c]]
      | l :: ls => (c :: l) :: ls

/-- The error of `readServerList`: `failed to read file <filename>: <cause>`. -/
structure ReadError where
  filename : String
  cause : String
  deriving DecidableEq, Repr

/-- The function `readServerList`; `readFile` is `os.ReadFile`, the content of
the named file or the cause of the failure. -/
def readServerList (readFile : String → Except String (List Char)) (filename : String) :
    Except ReadError (List (List Char)) :=
  match readFile filename with
  | .error err => .error ⟨filename, err⟩
  | .ok data => .ok (Split (TrimSpace data) '\n')

/-- Does the string begin with a white space character. -/
def beginsWithSpace (s : List Char) : Bool :=
  match s.head? with
  | some c => isSpace c
  | none => false

/-- Does the string end with a white space character. -/
def endsWithSpace (s : List Char) : Bool :=
  match s.getLast? with
  | some c => isSpace c
  | none => false

/-! ## `checkHealth` (`main.go` lines 94-111) -/

/-- A JSON value as the decoder reads it from the response body.  A number is
kept as `some n` when its literal is an optional minus sign followed by digits
(denoting `n`), as `none` when the literal has a fraction or an exponent. -/
inductive Json where
  | null : Json
  | bool (b : Bool) : Json
  | number (n : Option Int) : Json
  | string (s : String) : Json
  | array (items : List Json) : Json
  | object (members : List (String × Json)) : Json

/-- The HTTP response as far as `checkHealth` looks at it.  The body is the
first JSON value of the stream, `none` when the stream does not start with a
syntactically valid JSON value. -/
structure Response where
  StatusCode : Int
  Body : Option Json

/-- The method `client.Get`: the response for a URL, or the cause of the
network failure. -/
abbrev HttpClient := String → Except String Response

/-- The errors of `checkHealth`, by message. -/
inductive ProbeError where
  | getFailed (url : String) (cause : String) : ProbeError
  | non200 (url : String) (status : Int) : ProbeError
  | decodeFailed (url : String) (cause : String) : ProbeError
  deriving DecidableEq, Repr

/-- The fields of `HealthCheck` that carry a `json` tag. -/
inductive Field where
  | application | version | uptime | requestCount | errorCount | successCount
  deriving DecidableEq, Repr

/-- The JSON name of a field, from its struct tag. -/
def Field.name : Field → String
  | .application => "application"
  | .version => "version"
  | .uptime => "uptime"
  | .requestCount => "requestCount"
  | .errorCount => "errorCount"
  | .successCount => "successCount"

/-- Case folding of one code point as `encoding/json` compares object keys with
field names: ASCII letters fold to upper case, and so do the two non-ASCII code
points whose simple case folding is an ASCII letter (U+017F to `S`, U+212A to
`K`). -/
def foldRune (c : Char) : Char :=
  if c.toNat = 0x17F then 'S'
  else if c.toNat = 0x212A then 'K'
  else c.toUpper

/-- Case folding of a key. -/
def foldName (s : String) : List Char := s.toList.map foldRune

/-- The field an object key is decoded into: the field whose name equals the
key up to case folding; a key that matches no field is skipped. -/
def fieldOfKey (key : String) : Option Field :=
  [Field.application, Field.version, Field.uptime, Field.requestCount,
    Field.errorCount, Field.successCount].find? fun f => foldName f.name = foldName key

/-- Does the integer fit `int64`. -/
def isInt64 (n : Int) : Bool := decide (-(2 ^ 63) ≤ n) && decide (n < 2 ^ 63)

/-- Decoding of one JSON value into a string field: a JSON string is stored,
`null` leaves the field alone, anything else is a type error. -/
def decodeString (old : String) : Json → Except String String
  | .string s => .ok s
  | .null => .ok old
  | _ => .error "json: cannot unmarshal value into Go struct field of type string"

/-- Decoding of one JSON value into an `int64` field: an integer literal within
range is stored, `null` leaves the field alone, anything else is a type error. -/
def decodeInt64 (old : Int) : Json → Except String Int
  | .number (some n) =>
    if isInt64 n then .ok n
    else .error "json: cannot unmarshal number into Go struct field of type int64"
  | .null => .ok old
  | _ => .error "json: cannot unmarshal value into Go struct field of type int64"

/-- Decoding of one object member into the struct. -/
def decodeMember (hc : HealthCheck) (key : String) (v : Json) : Except String HealthCheck :=
  match fieldOfKey key with
  | none => .ok hc
  | some .application => (decodeString hc.Application v).map fun x => { hc with Application := x }
  | some .version => (decodeString hc.Version v).map fun x => { hc with Version := x }
  | some .uptime => (decodeInt64 hc.Uptime v).map fun x => { hc with Uptime := x }
  | some .requestCount =>
    (decodeInt64 hc.RequestCount v).map fun x => { hc with RequestCount := x }
  | some .errorCount => (decodeInt64 hc.ErrorCount v).map fun x => { hc with ErrorCount := x }
  | some .successCount =>
    (decodeInt64 hc.SuccessCount v).map fun x => { hc with SuccessCount := x }

/-- Decoding of the members of an object, in order; a later member for the same
field overwrites an earlier one. -/
def decodeMembers (hc : HealthCheck) : List (String × Json) → Except String HealthCheck
  | [] => .ok hc
  | (key, v) :: rest =>
    match decodeMember hc key v with
    | .error e => .error e
    | .ok hc' => decodeMembers hc' rest

/-- The call `json.NewDecoder(resp.Body).Decode(&hc)` on a zero `hc`, as
documented for `encoding/json`: an object is decoded member by member, fields
without a member keep their zero value; `null` decodes to the untouched struct;
every other value, and a body that is not JSON, is an error.  (On a type error
the real decoder goes on and reports the error at the end; `checkHealth` drops
the struct in that case, so stopping at the first error is the same to it.) -/
def jsonDecode : Option Json → Except String HealthCheck
  | none => .error "invalid character or unexpected end of JSON input"
  | some (.object members) => decodeMembers HealthCheck.zero members
  | some .null => .ok HealthCheck.zero
  | some _ => .error "json: cannot unmarshal value into Go value of type main.HealthCheck"

/-- The function `checkHealth`: the record and a `nil` error, or the zero record
and the error. -/
def checkHealth (client : HttpClient) (url : String) : HealthCheck × Option ProbeError :=
  match client url with
  | .error err => (HealthCheck.zero, some (.getFailed url err))
  | .ok resp =>
    if resp.StatusCode ≠ 200 then (HealthCheck.zero, some (.non200 url resp.StatusCode))
    else
      match jsonDecode resp.Body with
      | .error err => (HealthCheck.zero, some (.decodeFailed url err))
      | .ok hc => (hc, none)

/-- The body is a health record with all six fields present and parseable: a
JSON object with a string for `application` and `version` and an `int64`
integer for each of the four counters. -/
def wellFormedRecord : Option Json → Bool
  | some (.object members) =>
    let str := fun (k : String) =>
      members.any fun m => m.1 = k && (match m.2 with | .string _ => true | _ => false)
    let int := fun (k : String) =>
      members.any fun m => m.1 = k &&
        (match m.2 with | .number (some n) => isInt64 n | _ => false)
    str "application" && str "version" && int "uptime" && int "requestCount"
      && int "errorCount" && int "successCount"
  | _ => false

/-- The body a server sends for a record. -/
def healthzBody (hc : HealthCheck) : Option Json :=
  some (.object [("application", .string hc.Application), ("version", .string hc.Version),
    ("uptime", .number (some hc.Uptime)), ("requestCount", .number (some hc.RequestCount)),
    ("errorCount", .number (some hc.ErrorCount)),
    ("successCount", .number (some hc.SuccessCount))])

/-- Is the field a string field (`application`, `version`); the other four are
`int64` fields. -/
def Field.isString : Field → Bool
  | .application => true
  | .version => true
  | _ => false

/-- Is the JSON value a string. -/
def Json.isString : Json → Bool
  | .string _ => true
  | _ => false

/-- Is the JSON value an integer literal. -/
def Json.isInteger : Json → Bool
  | .number (some _) => true
  | _ => false

/-- The string a JSON string carries; the default for any other value. -/
def Json.stringOr : Json → String → String
  | .string s, _ => s
  | _, dflt => dflt

/-- The integer an integer literal denotes; the default for any other value. -/
def Json.integerOr : Json → Int → Int
  | .number (some n), _ => n
  | _, dflt => dflt

/-- The amended claim's condition on one object member, in its own words: a
member whose key names no field is ignored; for a known field `null` is
accepted, a string is accepted by a string field, an integer literal in
`int64` range by an `int64` field, and every other value is of the wrong
type. -/
def memberAccepted (key : String) (v : Json) : Bool :=
  match fieldOfKey key with
  | none => true
  | some f =>
    match v with
    | .null => true
    | .string _ => f.isString
    | .number (some n) => !f.isString && isInt64 n
    | _ => false

/-- The amended claim's value of a string field: the string of the last member
for the field that carries a string; the default when there is none (absent
and `null` members leave the field alone). -/
def stringOf (f : Field) (dflt : String) (members : List (String × Json)) : String :=
  match members.reverse.find? fun m => decide (fieldOfKey m.1 = some f) && m.2.isString with
  | some (_, .string s) => s
  | _ => dflt

/-- The amended claim's value of an `int64` field: the integer of the last
member for the field that carries an integer literal; the default when there
is none. -/
def intOf (f : Field) (dflt : Int) (members : List (String × Json)) : Int :=
  match members.reverse.find? fun m => decide (fieldOfKey m.1 = some f) && m.2.isInteger with
  | some (_, .number (some n)) => n
  | _ => dflt

/-- The record the amended claim assigns to an accepted object. -/
def recordOf (members : List (String × Json)) : HealthCheck where
  Application := stringOf .application "" members
  Version := stringOf .version "" members
  Uptime := intOf .uptime 0 members
  RequestCount := intOf .requestCount 0 members
  ErrorCount := intOf .errorCount 0 members
  SuccessCount := intOf .successCount 0 members

/-! ## `fetchHealthChecks` (`main.go` lines 57-92)

The function runs twelve goroutines: the caller (`main`), ten workers and the
goroutine that closes `results`.  The model is a transition system.  Its state
holds the two channels, the wait group, the program point of every goroutine
and the local `healthChecks`; an action is one step of one goroutine; a channel
operation that would block is a disabled action.  The sequential prefix of the
function (lines 59-66: both channels made with capacity `len(servers)`, every
server sent to `serverChan`, `serverChan` closed) runs before any other
goroutine exists and is the initial state. -/

/-- The program point of a worker goroutine (lines 70-79). -/
inductive Worker where
  /-- At `for server := range serverChan`, about to receive. -/
  | recv : Worker
  /-- Holding `server`, about to call `checkHealth`. -/
  | probe (server : String) : Worker
  /-- Holding the record of a successful probe, about to send it on `results`. -/
  | send (hc : HealthCheck) : Worker
  /-- Left the loop and ran the deferred `wg.Done()`. -/
  | exited : Worker
  deriving DecidableEq, Repr

/-- The program point of the caller (lines 68-91). -/
inductive MainPc where
  /-- At the test `i < workerCount` of the spawning loop. -/
  | loop (i : Nat) : MainPc
  /-- After `wg.Add(1)` of iteration `i`, about to start the worker. -/
  | added (i : Nat) : MainPc
  /-- In `for hc := range results`, about to receive. -/
  | collect : MainPc
  /-- Returned `healthChecks`. -/
  | returned : MainPc
  deriving DecidableEq, Repr

/-- The program point of the closing goroutine (lines 82-85). -/
inductive Closer where
  | notStarted : Closer
  /-- In `wg.Wait()`. -/
  | waiting : Closer
  /-- About to run `close(results)`. -/
  | closing : Closer
  | finished : Closer
  deriving DecidableEq, Repr

/-- The state of one call of `fetchHealthChecks`.  The fields `dequeued` and
`probed` are history variables: they record, in order, which worker received
which address from `serverChan` and which worker probed which address; no step
reads them. -/
structure Pool where
  /-- The buffer of `serverChan` (closed). -/
  serverChan : List String
  /-- The buffer of `results`, oldest first. -/
  results : List HealthCheck
  /-- The capacity of `results`. -/
  resultsCap : Nat
  resultsClosed : Bool
  /-- The counter of `wg`. -/
  wg : Nat
  /-- The workers started so far, by index. -/
  workers : List Worker
  main : MainPc
  closer : Closer
  /-- The local slice `healthChecks` of the caller. -/
  healthChecks : List HealthCheck
  /-- The addresses written to the log by `log.Printf`. -/
  logged : List String
  dequeued : List (Nat × String)
  probed : List (Nat × String)
  deriving DecidableEq, Repr

/-- One step of one goroutine. -/
inductive Action where
  | main : Action
  | closer : Action
  | worker (i : Nat) : Action
  deriving DecidableEq, Repr

/-- The URL a worker probes for an address (line 73). -/
def healthzURL (server : String) : String := "http://" ++ server ++ "/healthz"

/-- The outcome of a probe: the result pair of `checkHealth` for a URL. -/
abbrev Probe := String → HealthCheck × Option ProbeError

/-- The state in which the first goroutine is started. -/
def Pool.init (servers : List String) : Pool where
  serverChan := servers
  results := []
  resultsCap := servers.length
  resultsClosed := false
  wg := 0
  workers := []
  main := .loop 0
  closer := .notStarted
  healthChecks := []
  logged := []
  dequeued := []
  probed := []

/-- A step of the caller; `none` when it is blocked or has returned. -/
def stepMain (s : Pool) : Option Pool :=
  match s.main with
  | .loop i =>
    if i < workerCount then
      -- wg.Add(1)
      some { s with wg := s.wg + 1, main := .added i }
    else
      -- go func() { wg.Wait(); close(results) }()
      some { s with closer := .waiting, main := .collect }
  | .added i =>
    -- go func() { ... }(); i++
    some { s with workers := s.workers ++ [Worker.recv], main := .loop (i + 1) }
  | .collect =>
    match s.results with
    | hc :: rest =>
      -- healthChecks = append(healthChecks, hc)
      some { s with results := rest, healthChecks := s.healthChecks ++ [hc] }
    | [] =>
      -- the loop ends when the channel is closed and drained
      if s.resultsClosed then some { s with main := .returned } else none
  | .returned => none

/-- A step of the closing goroutine; `none` when it is blocked in `wg.Wait()`,
not started or finished. -/
def stepCloser (s : Pool) : Option Pool :=
  match s.closer with
  | .notStarted => none
  | .waiting => if s.wg = 0 then some { s with closer := .closing } else none
  | .closing =>
    -- closing a closed channel panics
    if s.resultsClosed then none
    else some { s with resultsClosed := true, closer := .finished }
  | .finished => none

/-- A step of worker `i`; `none` when the worker does not exist, has exited, is
blocked sending on a full `results`, or would panic (send on a closed channel,
negative wait group counter). -/
def stepWorker (probe : Probe) (s : Pool) (i : Nat) : Option Pool :=
  match s.workers[i]? with
  | none => none
  | some .recv =>
    match s.serverChan with
    | server :: rest =>
      some { s with serverChan := rest, workers := s.workers.set i (.probe server),
                    dequeued := s.dequeued ++ [(i, server)] }
    | [] =>
      -- closed and drained: the loop ends, the deferred wg.Done() runs
      if s.wg = 0 then none
      else some { s with wg := s.wg - 1, workers := s.workers.set i .exited }
  | some (.probe server) =>
    match probe (healthzURL server) with
    | (hc, none) =>
      some { s with workers := s.workers.set i (.send hc),
                    probed := s.probed ++ [(i, server)] }
    | (_, some _) =>
      -- log.Printf("Error querying server %s: %v", server, err)
      some { s with workers := s.workers.set i .recv, logged := s.logged ++ [server],
                    probed := s.probed ++ [(i, server)] }
  | some (.send hc) =>
    if s.resultsClosed then none
    else if s.results.length < s.resultsCap then
      some { s with results := s.results ++ [hc], workers := s.workers.set i .recv }
    else none
  | some .exited => none

/-- One step of the system. -/
def step (probe : Probe) (s : Pool) : Action → Option Pool
  | .main => stepMain s
  | .closer => stepCloser s
  | .worker i => stepWorker probe s i

/-- The state after a schedule, every action of which must be enabled. -/
def exec (probe : Probe) (s : Pool) : List Action → Option Pool
  | [] => some s
  | a :: rest =>
    match step probe s a with
    | none => none
    | some s' => exec probe s' rest

/-- The states of the call `fetchHealthChecks(client, servers)`. -/
def Reachable (probe : Probe) (servers : List String) (s : Pool) : Prop :=
  ∃ sched, exec probe (Pool.init servers) sched = some s

/-- The action set a scheduler may pick from. -/
def allActions : List Action :=
  Action.main :: Action.closer :: (List.range workerCount).map Action.worker

/-- A run under a scheduler that always picks the first enabled action, with
fuel; the state in which it stops. -/
def runFirstEnabled (probe : Probe) : Nat → Pool → Pool
  | 0, s => s
  | fuel + 1, s =>
    match allActions.findSome? (step probe s) with
    | none => s
    | some s' => runFirstEnabled probe fuel s'

/-- The record of a successful probe of an address. -/
def okRecord (probe : Probe) (server : String) : Option HealthCheck :=
  match probe (healthzURL server) with
  | (hc, none) => some hc
  | (_, some _) => none

/-- Does the probe of an address fail. -/
def probeFails (probe : Probe) (server : String) : Bool :=
  (probe (healthzURL server)).2.isSome

/-- The steps a worker still takes at least, used in the termination measure:
each address costs a receive, a probe, a send and a collect. -/
def Worker.weight : Worker → Nat
  | .recv => 1
  | .probe _ => 4
  | .send _ => 3
  | .exited => 0

/-- The remaining steps of the caller outside the collecting of records. -/
def MainPc.weight : MainPc → Nat
  | .loop i => 3 * (workerCount - i) + 2
  | .added i => 3 * (workerCount - i) + 1
  | .collect => 1
  | .returned => 0

/-- The remaining steps of the closing goroutine. -/
def Closer.weight : Closer → Nat
  | .notStarted => 2
  | .waiting => 2
  | .closing => 1
  | .finished => 0

/-- The termination measure: an upper bound of the number of steps left. -/
def Pool.measure (s : Pool) : Nat :=
  4 * s.serverChan.length + (s.workers.map Worker.weight).sum + s.results.length
    + s.main.weight + s.closer.weight

/-- The addresses workers hold and have not probed yet. -/
def probing : List Worker → List String
  | [] => []
  | .probe server :: ws => server :: probing ws
  | _ :: ws => probing ws

/-- The records workers hold and have not sent yet. -/
def sending : List Worker → List HealthCheck
  | [] => []
  | .send hc :: ws => hc :: sending ws
  | _ :: ws => sending ws

/-- The number of workers that have not exited. -/
def liveCount : List Worker → Nat
  | [] => 0
  | .exited :: ws => liveCount ws
  | _ :: ws => liveCount ws + 1

/-- The addresses workers hold and have not probed yet, with the index of the
worker; `k` is the index of the first worker of the list. -/
def probingFrom : Nat → List Worker → List (Nat × String)
  | _, [] => []
  | k, .probe server :: ws => (k, server) :: probingFrom (k + 1) ws
  | k, _ :: ws => probingFrom (k + 1) ws

/-- The steps of the system as a relation, one constructor per statement that
a goroutine can execute. -/
inductive Step (probe : Probe) : Pool → Pool → Prop where
  | add (s : Pool) (i : Nat) (hpc : s.main = .loop i) (hi : i < workerCount) :
      Step probe s { s with wg := s.wg + 1, main := .added i }
  | startCloser (s : Pool) (i : Nat) (hpc : s.main = .loop i) (hi : ¬ i < workerCount) :
      Step probe s { s with closer := .waiting, main := .collect }
  | spawn (s : Pool) (i : Nat) (hpc : s.main = .added i) :
      Step probe s { s with workers := s.workers ++ [Worker.recv], main := .loop (i + 1) }
  | collect (s : Pool) (hc : HealthCheck) (rest : List HealthCheck) (hpc : s.main = .collect)
      (hres : s.results = hc :: rest) :
      Step probe s { s with results := rest, healthChecks := s.healthChecks ++ [hc] }
  | ret (s : Pool) (hpc : s.main = .collect) (hres : s.results = [])
      (hcl : s.resultsClosed = true) :
      Step probe s { s with main := .returned }
  | waitDone (s : Pool) (hpc : s.closer = .waiting) (hwg : s.wg = 0) :
      Step probe s { s with closer := .closing }
  | close (s : Pool) (hpc : s.closer = .closing) (hcl : s.resultsClosed = false) :
      Step probe s { s with resultsClosed := true, closer := .finished }
  | dequeue (s : Pool) (l₁ l₂ : List Worker) (server : String) (rest : List String)
      (hw : s.workers = l₁ ++ Worker.recv :: l₂) (hq : s.serverChan = server :: rest) :
      Step probe s { s with serverChan := rest, workers := l₁ ++ Worker.probe server :: l₂,
                            dequeued := s.dequeued ++ [(l₁.length, server)] }
  | exit (s : Pool) (l₁ l₂ : List Worker) (hw : s.workers = l₁ ++ Worker.recv :: l₂)
      (hq : s.serverChan = []) (hwg : s.wg ≠ 0) :
      Step probe s { s with wg := s.wg - 1, workers := l₁ ++ Worker.exited :: l₂ }
  | probeOk (s : Pool) (l₁ l₂ : List Worker) (server : String) (hc : HealthCheck)
      (hw : s.workers = l₁ ++ Worker.probe server :: l₂)
      (hp : probe (healthzURL server) = (hc, none)) :
      Step probe s { s with workers := l₁ ++ Worker.send hc :: l₂,
                            probed := s.probed ++ [(l₁.length, server)] }
  | probeFail (s : Pool) (l₁ l₂ : List Worker) (server : String) (hc : HealthCheck)
      (e : ProbeError) (hw : s.workers = l₁ ++ Worker.probe server :: l₂)
      (hp : probe (healthzURL server) = (hc, some e)) :
      Step probe s { s with workers := l₁ ++ Worker.recv :: l₂,
                            logged := s.logged ++ [server],
                            probed := s.probed ++ [(l₁.length, server)] }
  | send (s : Pool) (l₁ l₂ : List Worker) (hc : HealthCheck)
      (hw : s.workers = l₁ ++ Worker.send hc :: l₂) (hcl : s.resultsClosed = false)
      (hlen : s.results.length < s.resultsCap) :
      Step probe s { s with results := s.results ++ [hc], workers := l₁ ++ Worker.recv :: l₂ }

/-- The invariant of the system, for the call with the list `servers`. -/
structure PoolInv (probe : Probe) (servers : List String) (s : Pool) : Prop where
  /-- `results` has room for one record per address. -/
  cap : s.resultsCap = servers.length
  /-- In iteration `i` of the spawning loop `i` workers exist. -/
  pcLoop : ∀ i, s.main = .loop i →
    s.workers.length = i ∧ i ≤ workerCount ∧ s.closer = .notStarted
  pcAdded : ∀ i, s.main = .added i →
    s.workers.length = i ∧ i < workerCount ∧ s.closer = .notStarted
  /-- After the loop all workers and the closing goroutine exist. -/
  pcLate : s.main = .collect ∨ s.main = .returned →
    s.workers.length = workerCount ∧ s.closer ≠ .notStarted
  /-- The wait group counts the workers that have not exited, and the worker
  announced by `wg.Add(1)` but not started yet. -/
  wgCount : s.wg = liveCount s.workers + (match s.main with | .added _ => 1 | _ => 0)
  /-- `wg.Wait()` returns only after all workers have exited. -/
  closerDone : s.closer = .closing ∨ s.closer = .finished → liveCount s.workers = 0
  closedIff : s.resultsClosed = true ↔ s.closer = .finished
  /-- A worker exits only when `serverChan` is drained. -/
  drained : liveCount s.workers < s.workers.length → s.serverChan = []
  afterReturn : s.main = .returned → s.resultsClosed = true ∧ s.results = []
  /-- Every address is in exactly one place. -/
  count : s.serverChan.length + (probing s.workers).length + (sending s.workers).length
    + s.results.length + s.healthChecks.length + s.logged.length = servers.length
  /-- The records of the addresses that probe successfully, as a multiset. -/
  records : ∀ x, (s.serverChan.filterMap (okRecord probe)).count x
    + ((probing s.workers).filterMap (okRecord probe)).count x
    + (sending s.workers).count x + s.results.count x + s.healthChecks.count x
    = (servers.filterMap (okRecord probe)).count x
  /-- The addresses that fail to probe, as a multiset. -/
  failures : ∀ a, (s.serverChan.filter (probeFails probe)).count a
    + ((probing s.workers).filter (probeFails probe)).count a + s.logged.count a
    = (servers.filter (probeFails probe)).count a
  /-- The addresses are received in the order of the list. -/
  queue : s.dequeued.map Prod.snd ++ s.serverChan = servers
  /-- An address is probed by the worker that received it, once. -/
  probedOnce : ∀ p, s.probed.count p + (probingFrom 0 s.workers).count p = s.dequeued.count p
  workerIdx : ∀ p ∈ s.dequeued, p.1 < s.workers.length

/-! ## Lemmas on the binary64 model -/

namespace Float64

theorem bitLenAux_lower (fuel n : Nat) (hf : n ≤ fuel) (hn : n ≠ 0) :
    2 ^ (bitLenAux fuel n - 1) ≤ n := by
  induction fuel generalizing n with
  | zero => omega
  | succ fuel ih =>
    simp only [bitLenAux, hn, if_false, Nat.add_sub_cancel]
    by_cases h2 : n / 2 = 0
    · cases fuel <;> simp [bitLenAux, h2] <;> omega
    · have := ih (n / 2) (by omega) h2
      have hpos : 1 ≤ bitLenAux fuel (n / 2) := by
        cases fuel with
        | zero => omega
        | succ f => simp [bitLenAux, h2]
      have e : bitLenAux fuel (n / 2) = (bitLenAux fuel (n / 2) - 1) + 1 := by omega
      rw [e, pow_succ]
      omega

theorem bitLen_lower (n : Nat) (hn : n ≠ 0) : 2 ^ (bitLen n - 1) ≤ n :=
  bitLenAux_lower n n le_rfl hn

theorem bitLen_pos (n : Nat) (hn : n ≠ 0) : 1 ≤ bitLen n := by
  unfold bitLen
  cases n with
  | zero => exact absurd rfl hn
  | succ k => simp [bitLenAux]

theorem le_divNearestEven (n d : Nat) : n / d ≤ divNearestEven n d := by
  unfold divNearestEven
  simp only
  split
  · exact le_rfl
  · split
    · omega
    · split <;> omega

theorem pack_of_ne_zero (neg : Bool) (m : Nat) (e : Int) (hm : m ≠ 0) :
    pack neg m e = inf neg ∨ ∃ m' e', m' ≠ 0 ∧ pack neg m e = fin neg m' e' := by
  unfold pack
  rw [if_neg hm]
  split
  · split
    · exact Or.inl rfl
    · exact Or.inr ⟨2 ^ 52, e + 1, by norm_num, rfl⟩
  · split
    · exact Or.inl rfl
    · exact Or.inr ⟨m, e, hm, rfl⟩

theorem ofInt_zero : ofInt 0 = fin false 0 0 := by decide

theorem roundExp_one_le (n : Nat) (hn : n ≠ 0) : roundExp n 1 ≤ (bitLen n : Int) - 53 := by
  have hb1 : bitLen 1 = 1 := by decide
  have hpos := bitLen_pos n hn
  unfold roundExp
  simp only [hb1]
  split <;> apply max_le <;> omega

theorem scaledQuot_one_ne_zero (n : Nat) (hn : n ≠ 0) (e : Int)
    (he : e ≤ (bitLen n : Int) - 53) : scaledQuot n 1 e ≠ 0 := by
  have hlow := bitLen_lower n hn
  unfold scaledQuot
  cases e with
  | ofNat k =>
    simp only
    have hk : k ≤ bitLen n - 53 := by
      have : (k : Int) ≤ (bitLen n : Int) - 53 := he
      omega
    have hq : 1 ≤ n / (1 * 2 ^ k) := by
      rw [one_mul]
      apply (Nat.one_le_div_iff (by positivity)).2
      calc 2 ^ k ≤ 2 ^ (bitLen n - 1) := Nat.pow_le_pow_right (by norm_num) (by omega)
        _ ≤ n := hlow
    have := le_divNearestEven n (1 * 2 ^ k)
    omega
  | negSucc k =>
    simp only
    have hq : 1 ≤ n * 2 ^ (k + 1) / 1 := by
      rw [Nat.div_one]
      have : 0 < 2 ^ (k + 1) := by positivity
      have hn' : 0 < n := Nat.pos_of_ne_zero hn
      exact Nat.mul_pos hn' this
    have := le_divNearestEven (n * 2 ^ (k + 1)) 1
    omega

/-- The conversion of a nonzero integer is not a zero. -/
theorem ofInt_of_ne_zero (x : Int) (hx : x ≠ 0) :
    ofInt x = inf (decide (x < 0)) ∨ ∃ m e, m ≠ 0 ∧ ofInt x = fin (decide (x < 0)) m e := by
  have hn : x.natAbs ≠ 0 := by simpa using hx
  unfold ofInt ofRatio
  rw [if_neg hn]
  exact pack_of_ne_zero _ _ _
    (scaledQuot_one_ne_zero _ hn _ (roundExp_one_le _ hn))

theorem div_zero_of_ne_zero (x : Int) (hx : x ≠ 0) :
    div (ofInt x) (ofInt 0) = inf (decide (x < 0)) := by
  rw [ofInt_zero]
  rcases ofInt_of_ne_zero x hx with h | ⟨m, e, hm, h⟩
  · rw [h]; simp [div]
  · rw [h]; simp [div, hm]

theorem div_zero_zero : div (ofInt 0) (ofInt 0) = nan := by decide

end Float64

/-! ## Lemmas on Go maps -/

namespace GoMap

variable {κ ν : Type} [DecidableEq κ]

theorem lookup_store (m : GoMap κ ν) (k k' : κ) (v : ν) :
    (m.store k v).lookup k' = if k = k' then some v else m.lookup k' := by
  induction m with
  | nil => simp [store, lookup]
  | cons e rest ih =>
    obtain ⟨k0, v0⟩ := e
    by_cases h : k0 = k
    · subst h
      by_cases h' : k0 = k' <;> simp [store, lookup, h']
    · by_cases h' : k0 = k'
      · subst h'
        simp [store, lookup, h, Ne.symm h]
      · simp [store, lookup, h, h', ih]

theorem lookup_isSome_iff (m : GoMap κ ν) (k : κ) :
    (m.lookup k).isSome ↔ k ∈ m.keys := by
  induction m with
  | nil => simp [lookup, keys]
  | cons e rest ih =>
    obtain ⟨k0, v0⟩ := e
    by_cases h : k0 = k
    · simp [lookup, keys, h]
    · simp only [lookup, h, if_false, ih, keys, List.map_cons, List.mem_cons]
      constructor
      · intro hm; exact Or.inr hm
      · rintro (hm | hm)
        · exact absurd hm.symm h
        · exact hm

theorem lookup_eq_none_iff (m : GoMap κ ν) (k : κ) :
    m.lookup k = none ↔ k ∉ m.keys := by
  rw [← lookup_isSome_iff]
  cases m.lookup k <;> simp

theorem mem_of_lookup {m : GoMap κ ν} {k : κ} {v : ν} (h : m.lookup k = some v) :
    (k, v) ∈ m := by
  induction m with
  | nil => simp [lookup] at h
  | cons e rest ih =>
    obtain ⟨k0, v0⟩ := e
    by_cases hk : k0 = k
    · simp [lookup, hk] at h
      simp [hk, h]
    · simp [lookup, hk] at h
      exact List.mem_cons_of_mem _ (ih h)

theorem lookup_of_mem {m : GoMap κ ν} (hnd : m.keys.Nodup) {k : κ} {v : ν}
    (h : (k, v) ∈ m) : m.lookup k = some v := by
  induction m with
  | nil => simp at h
  | cons e rest ih =>
    obtain ⟨k0, v0⟩ := e
    simp only [keys, List.map_cons, List.nodup_cons] at hnd
    rcases List.mem_cons.1 h with heq | hmem
    · cases heq
      simp [lookup]
    · have hne : k0 ≠ k := by
        intro hk
        apply hnd.1
        rw [hk]
        exact List.mem_map_of_mem Prod.fst hmem
      simp only [lookup, hne, if_false]
      exact ih hnd.2 hmem

theorem keys_store (m : GoMap κ ν) (k : κ) (v : ν) :
    (m.store k v).keys = if k ∈ m.keys then m.keys else m.keys ++ [k] := by
  induction m with
  | nil => simp [store, keys]
  | cons e rest ih =>
    obtain ⟨k0, v0⟩ := e
    by_cases h : k0 = k
    · subst h
      simp [store, keys]
    · have h' : ¬ k = k0 := fun hh => h hh.symm
      simp only [keys] at ih
      simp only [store, h, if_false, keys, List.map_cons, List.mem_cons, h', false_or, ih]
      split <;> simp

theorem nodup_keys_store {m : GoMap κ ν} (h : m.keys.Nodup) (k : κ) (v : ν) :
    (m.store k v).keys.Nodup := by
  rw [keys_store]
  split
  · exact h
  · rename_i hk
    rw [List.nodup_append]
    refine ⟨h, List.nodup_singleton k, ?_⟩
    intro a ha hb
    simp at hb
    exact hk (hb ▸ ha)

theorem length_store (m : GoMap κ ν) (k : κ) (v : ν) :
    (m.store k v).length = m.length + if (m.lookup k).isSome then 0 else 1 := by
  induction m with
  | nil => simp [store, lookup]
  | cons e rest ih =>
    obtain ⟨k0, v0⟩ := e
    by_cases h : k0 = k
    · simp [store, lookup, h]
    · simp [store, lookup, h, ih]
      omega

theorem sum_store (f : ν → Nat) (m : GoMap κ ν) (k : κ) (v : ν) :
    ((m.store k v).map fun e => f e.2).sum + ((m.lookup k).map f).getD 0
      = (m.map fun e => f e.2).sum + f v := by
  induction m with
  | nil => simp [store, lookup]
  | cons e rest ih =>
    obtain ⟨k0, v0⟩ := e
    by_cases h : k0 = k
    · simp [store, lookup, h]
      omega
    · simp [store, lookup, h]
      omega

theorem store_ne_nil (m : GoMap κ ν) (k : κ) (v : ν) : m.store k v ≠ [] := by
  cases m with
  | nil => simp [store]
  | cons e rest =>
    obtain ⟨k0, v0⟩ := e
    by_cases h : k0 = k <;> simp [store, h]

end GoMap

/-! ## Lemmas on `aggregateResults` -/

theorem aggregateStep_eq (agg : AggMap) (hc : HealthCheck) :
    aggregateStep agg hc =
      match agg.lookup hc.Application with
      | some (some m) => agg.store hc.Application (some (m.store hc.Version (leafOf hc)))
      | _ => (agg.store hc.Application (some [])).store hc.Application
                (some [(hc.Version, leafOf hc)]) := by
  unfold aggregateStep
  rcases h : GoMap.lookup agg hc.Application with _ | _ | m <;>
    simp [h, leafOf, GoMap.store, GoMap.lookup]

theorem lookup_aggregateStep (agg : AggMap) (hc : HealthCheck) (a : String) :
    (aggregateStep agg hc).lookup a =
      if hc.Application = a then
        some (some (((agg.lookup a).getD none).getD [] |>.store hc.Version (leafOf hc)))
      else agg.lookup a := by
  rw [aggregateStep_eq]
  by_cases ha : hc.Application = a
  · subst ha
    rcases h : GoMap.lookup agg hc.Application with _ | _ | m <;>
      simp [h, GoMap.lookup_store, GoMap.store]
  · rcases h : GoMap.lookup agg hc.Application with _ | _ | m <;>
      simp [h, GoMap.lookup_store, ha]

theorem reportAt_aggregateStep (agg : AggMap) (hc : HealthCheck) (a v : String) :
    reportAt (aggregateStep agg hc) a v =
      if hc.Application = a ∧ hc.Version = v then some (leafOf hc) else reportAt agg a v := by
  unfold reportAt
  rw [lookup_aggregateStep]
  by_cases ha : hc.Application = a
  · subst ha
    by_cases hv : hc.Version = v
    · simp [hv, GoMap.lookup_store]
    · rcases h : GoMap.lookup agg hc.Application with _ | _ | m <;>
        simp [h, hv, GoMap.lookup_store, GoMap.lookup]
  · simp [ha]

theorem aggregateLoop_append (agg : AggMap) (xs ys : List HealthCheck) :
    aggregateLoop agg (xs ++ ys) = aggregateLoop (aggregateLoop agg xs) ys := by
  simp [aggregateLoop, List.foldl_append]

theorem aggregateLoop_snoc (agg : AggMap) (xs : List HealthCheck) (hc : HealthCheck) :
    aggregateLoop agg (xs ++ [hc]) = aggregateStep (aggregateLoop agg xs) hc := by
  simp [aggregateLoop, List.foldl_append]

theorem aggregateLoop_cons (agg : AggMap) (xs : List HealthCheck) (hc : HealthCheck) :
    aggregateLoop agg (hc :: xs) = aggregateLoop (aggregateStep agg hc) xs := rfl

/-- Records that carry no `(a, v)` leave the leaf at `[a][v]` alone. -/
theorem reportAt_aggregateLoop_of_not_mem (agg : AggMap) (xs : List HealthCheck) (a v : String)
    (h : ∀ x ∈ xs, ¬ (x.Application = a ∧ x.Version = v)) :
    reportAt (aggregateLoop agg xs) a v = reportAt agg a v := by
  induction xs generalizing agg with
  | nil => rfl
  | cons x xs ih =>
    rw [aggregateLoop_cons, ih _ (fun y hy => h y (List.mem_cons_of_mem _ hy)),
      reportAt_aggregateStep, if_neg (h x (List.mem_cons_self _ _))]

/-- The leaf at the pair of a record that no later record overwrites. -/
theorem reportAt_last (agg : AggMap) (pre post : List HealthCheck) (hc : HealthCheck)
    (h : ∀ x ∈ post, ¬ (x.Application = hc.Application ∧ x.Version = hc.Version)) :
    reportAt (aggregateLoop agg (pre ++ hc :: post)) hc.Application hc.Version
      = some (leafOf hc) := by
  rw [aggregateLoop_append, aggregateLoop_cons, reportAt_aggregateLoop_of_not_mem _ _ _ _ h,
    reportAt_aggregateStep]
  simp

/-- Every record that occurs has a last occurrence of its pair. -/
theorem exists_last_occurrence (xs : List HealthCheck) (a v : String)
    (h : ∃ x ∈ xs, x.Application = a ∧ x.Version = v) :
    ∃ pre hc post, xs = pre ++ hc :: post ∧ hc.Application = a ∧ hc.Version = v ∧
      ∀ x ∈ post, ¬ (x.Application = a ∧ x.Version = v) := by
  induction xs with
  | nil => simp at h
  | cons y ys ih =>
    by_cases hys : ∃ x ∈ ys, x.Application = a ∧ x.Version = v
    · obtain ⟨pre, hc, post, he, h1, h2, h3⟩ := ih hys
      exact ⟨y :: pre, hc, post, by simp [he], h1, h2, h3⟩
    · obtain ⟨x, hx, hxa⟩ := h
      rcases List.mem_cons.1 hx with rfl | hx'
      · refine ⟨[], x, ys, rfl, hxa.1, hxa.2, ?_⟩
        intro z hz hza
        exact hys ⟨z, hz, hza⟩
      · exact absurd ⟨x, hx', hxa⟩ hys

theorem reportAt_isSome_iff (xs : List HealthCheck) (a v : String) :
    (reportAt (aggregateResults xs) a v).isSome ↔
      ∃ x ∈ xs, x.Application = a ∧ x.Version = v := by
  constructor
  · intro h
    by_contra hne
    have hn : ∀ x ∈ xs, ¬ (x.Application = a ∧ x.Version = v) :=
      fun x hx hxa => hne ⟨x, hx, hxa⟩
    have := reportAt_aggregateLoop_of_not_mem [] xs a v hn
    unfold aggregateResults at h
    rw [this] at h
    simp [reportAt, GoMap.lookup] at h
  · intro h
    obtain ⟨pre, hc, post, he, h1, h2, h3⟩ := exists_last_occurrence xs a v h
    subst h1 h2 he
    unfold aggregateResults
    rw [reportAt_last _ _ _ _ h3]
    rfl

theorem leafCount_store (agg : AggMap) (a : String) (m : Option VersionMap) :
    leafCount (agg.store a m) + (((agg.lookup a).getD none).getD []).length
      = leafCount agg + (m.getD []).length := by
  have := GoMap.sum_store (fun o : Option VersionMap => (o.getD []).length) agg a m
  unfold leafCount
  rcases h : GoMap.lookup agg a with _ | _ | m0 <;> simp [h] at this ⊢ <;> omega

theorem leafCount_aggregateStep (agg : AggMap) (hc : HealthCheck) :
    leafCount (aggregateStep agg hc) =
      leafCount agg + if (reportAt agg hc.Application hc.Version).isSome then 0 else 1 := by
  rw [aggregateStep_eq]
  rcases h : GoMap.lookup agg hc.Application with _ | _ | m
  · have h1 := leafCount_store agg hc.Application (some [])
    have h2 := leafCount_store (agg.store hc.Application (some [])) hc.Application
      (some [(hc.Version, leafOf hc)])
    simp [h, GoMap.lookup_store, reportAt] at h1 h2 ⊢
    omega
  · have h1 := leafCount_store agg hc.Application (some [])
    have h2 := leafCount_store (agg.store hc.Application (some [])) hc.Application
      (some [(hc.Version, leafOf hc)])
    simp [h, GoMap.lookup_store, reportAt] at h1 h2 ⊢
    omega
  · have h1 := leafCount_store agg hc.Application (some (m.store hc.Version (leafOf hc)))
    have h2 := GoMap.length_store m hc.Version (leafOf hc)
    simp only [h, reportAt] at h1 h2 ⊢
    simp only [Option.getD_some] at h1
    rw [h2] at h1
    omega

theorem leafCount_aggregateResults (xs : List HealthCheck) :
    leafCount (aggregateResults xs) = (xs.map HealthCheck.key).dedup.length := by
  rw [← List.card_toFinset]
  induction xs using List.reverseRecOn with
  | nil => rfl
  | append_singleton xs hc ih =>
    unfold aggregateResults at ih ⊢
    rw [aggregateLoop_snoc, leafCount_aggregateStep, ih]
    have hiff := reportAt_isSome_iff xs hc.Application hc.Version
    unfold aggregateResults at hiff
    have hk : (List.map HealthCheck.key (xs ++ [hc])).toFinset
        = insert hc.key (List.map HealthCheck.key xs).toFinset := by
      ext p; simp [or_comm]
    rw [hk]
    by_cases hmem : ∃ x ∈ xs, x.Application = hc.Application ∧ x.Version = hc.Version
    · have hin : hc.key ∈ (List.map HealthCheck.key xs).toFinset := by
        obtain ⟨x, hx, h1, h2⟩ := hmem
        simp only [List.mem_toFinset, List.mem_map]
        exact ⟨x, hx, by simp [HealthCheck.key, h1, h2]⟩
      rw [Finset.insert_eq_of_mem hin, if_pos (hiff.2 hmem)]
      rfl
    · have hnin : hc.key ∉ (List.map HealthCheck.key xs).toFinset := by
        simp only [List.mem_toFinset, List.mem_map]
        rintro ⟨x, hx, hxk⟩
        simp only [HealthCheck.key, Prod.mk.injEq] at hxk
        exact hmem ⟨x, hx, hxk⟩
      rw [Finset.card_insert_of_not_mem hnin, if_neg (fun h => hmem (hiff.1 h))]

theorem lookup_aggregateLoop_isSome_iff (xs : List HealthCheck) (a : String) :
    ((aggregateResults xs).lookup a).isSome ↔ ∃ x ∈ xs, x.Application = a := by
  induction xs using List.reverseRecOn with
  | nil => simp [aggregateResults, aggregateLoop, GoMap.lookup]
  | append_singleton xs hc ih =>
    unfold aggregateResults at ih ⊢
    rw [aggregateLoop_snoc, lookup_aggregateStep]
    by_cases ha : hc.Application = a
    · simp [ha]
      exact ⟨hc, Or.inr rfl, ha⟩
    · simp only [ha, if_false, ih, List.mem_append, List.mem_singleton]
      constructor
      · rintro ⟨x, hx, hxa⟩; exact ⟨x, Or.inl hx, hxa⟩
      · rintro ⟨x, hx | hx, hxa⟩
        · exact ⟨x, hx, hxa⟩
        · subst hx; exact absurd hxa ha

theorem reportInv_nil : ReportInv ([] : AggMap) := by
  refine ⟨by simp [GoMap.keys], ?_⟩
  intro a om h
  simp [GoMap.lookup] at h

theorem reportInv_aggregateStep {agg : AggMap} (h : ReportInv agg) (hc : HealthCheck) :
    ReportInv (aggregateStep agg hc) := by
  obtain ⟨hnd, hin⟩ := h
  constructor
  · rw [aggregateStep_eq]
    rcases hl : GoMap.lookup agg hc.Application with _ | _ | m <;>
      simp only [] <;>
      first
        | exact GoMap.nodup_keys_store (GoMap.nodup_keys_store hnd _ _) _ _
        | exact GoMap.nodup_keys_store hnd _ _
  · intro a om hlook
    rw [lookup_aggregateStep] at hlook
    by_cases ha : hc.Application = a
    · rw [if_pos ha] at hlook
      cases hlook
      refine ⟨_, rfl, GoMap.store_ne_nil _ _ _, ?_, ?_⟩
      · apply GoMap.nodup_keys_store
        rcases hl : GoMap.lookup agg a with _ | _ | m
        · simp [GoMap.keys]
        · simp [GoMap.keys]
        · obtain ⟨m', hm', _, hk, _⟩ := hin a _ hl
          cases hm'
          simpa using hk
      · intro v r hv
        rw [GoMap.lookup_store] at hv
        by_cases hver : hc.Version = v
        · rw [if_pos hver] at hv
          cases hv
          exact ⟨ha, hver⟩
        · rw [if_neg hver] at hv
          rcases hl : GoMap.lookup agg a with _ | _ | m
          · simp [hl, GoMap.lookup] at hv
          · simp [hl, GoMap.lookup] at hv
          · obtain ⟨m', hm', _, _, hleaf⟩ := hin a _ hl
            cases hm'
            simp only [hl, Option.getD_some] at hv
            exact hleaf v r hv
    · rw [if_neg ha] at hlook
      exact hin a om hlook

theorem reportInv_aggregateLoop {agg : AggMap} (h : ReportInv agg) (xs : List HealthCheck) :
    ReportInv (aggregateLoop agg xs) := by
  induction xs generalizing agg with
  | nil => exact h
  | cons x xs ih => exact ih (reportInv_aggregateStep h x)

theorem reportAt_of_inv {agg : AggMap} (h : ReportInv agg) {a v : String} {r : Report}
    (hr : reportAt agg a v = some r) : r.Application = a ∧ r.Version = v := by
  unfold reportAt at hr
  rcases hl : GoMap.lookup agg a with _ | _ | m
  · simp [hl] at hr
  · simp [hl] at hr
  · obtain ⟨m', hm', _, _, hleaf⟩ := h.2 a _ hl
    cases hm'
    simp only [hl] at hr
    exact hleaf v r hr

/-- Under pairwise distinct keys the leaf at `[a][v]` is a function of the
set of records. -/
theorem reportAt_perm {xs ys : List HealthCheck} (hnd : (xs.map HealthCheck.key).Nodup)
    (hp : ys.Perm xs) (a v : String) :
    reportAt (aggregateResults ys) a v = reportAt (aggregateResults xs) a v := by
  by_cases hex : ∃ x ∈ xs, x.Application = a ∧ x.Version = v
  · have hey : ∃ x ∈ ys, x.Application = a ∧ x.Version = v := by
      obtain ⟨x, hx, hxa⟩ := hex
      exact ⟨x, hp.mem_iff.2 hx, hxa⟩
    obtain ⟨p1, h1, q1, e1, a1, v1, l1⟩ := exists_last_occurrence xs a v hex
    obtain ⟨p2, h2, q2, e2, a2, v2, l2⟩ := exists_last_occurrence ys a v hey
    have hm1 : h1 ∈ xs := by rw [e1]; simp
    have hm2 : h2 ∈ xs := by apply hp.mem_iff.1; rw [e2]; simp
    have heq : h2 = h1 :=
      List.inj_on_of_nodup_map hnd hm2 hm1 (by simp [HealthCheck.key, a1, a2, v1, v2])
    subst heq
    subst a1 v1
    unfold aggregateResults
    rw [e1, e2, reportAt_last _ _ _ _ l1, reportAt_last _ _ _ _ l2]
  · have hney : ¬ ∃ x ∈ ys, x.Application = a ∧ x.Version = v := by
      rintro ⟨x, hx, hxa⟩
      exact hex ⟨x, hp.mem_iff.1 hx, hxa⟩
    have n1 := mt (reportAt_isSome_iff xs a v).1 hex
    have n2 := mt (reportAt_isSome_iff ys a v).1 hney
    simp only [Option.not_isSome_iff_eq_none] at n1 n2
    rw [n1, n2]

/-! ## Lemmas on `readServerList` -/

theorem Split_ne_nil (s : List Char) (sep : Char) : Split s sep ≠ [] := by
  cases s with
  | nil => simp [Split]
  | cons c cs =>
    simp only [Split]
    split
    · simp
    · split <;> simp

theorem intercalate_cons_cons {α : Type} (sep x y : List α) (ys : List (List α)) :
    sep.intercalate (x :: y :: ys) = x ++ sep ++ sep.intercalate (y :: ys) := by
  simp [List.intercalate, List.intersperse]

/-- Joining the pieces with the separator gives the string back. -/
theorem intercalate_Split (s : List Char) (sep : Char) :
    [sep].intercalate (Split s sep) = s := by
  induction s with
  | nil => simp [Split, List.intercalate]
  | cons c cs ih =>
    simp only [Split]
    split
    · rename_i hc
      obtain ⟨l, ls, hl⟩ := List.exists_cons_of_ne_nil (Split_ne_nil cs sep)
      rw [hl] at ih ⊢
      rw [intercalate_cons_cons, ih, hc]
      simp
    · obtain ⟨l, ls, hl⟩ := List.exists_cons_of_ne_nil (Split_ne_nil cs sep)
      rw [hl] at ih ⊢
      simp only
      cases ls with
      | nil =>
        simp [List.intercalate] at ih ⊢
        exact ih
      | cons y ys =>
        rw [intercalate_cons_cons] at ih ⊢
        simp only [List.cons_append, List.append_assoc] at ih ⊢
        rw [ih]

/-- No piece contains the separator. -/
theorem not_mem_of_mem_Split (s : List Char) (sep : Char) :
    ∀ l ∈ Split s sep, sep ∉ l := by
  induction s with
  | nil => simp [Split]
  | cons c cs ih =>
    simp only [Split]
    split
    · intro l hl
      rcases List.mem_cons.1 hl with rfl | hl
      · simp
      · exact ih l hl
    · rename_i hc
      obtain ⟨l₀, ls, hl⟩ := List.exists_cons_of_ne_nil (Split_ne_nil cs sep)
      rw [hl] at ih ⊢
      simp only
      intro l hmem
      rcases List.mem_cons.1 hmem with rfl | hmem
      · have := ih l₀ (List.mem_cons_self _ _)
        simp only [List.mem_cons, not_or]
        exact ⟨fun h => hc h.symm, this⟩
      · exact ih l (List.mem_cons_of_mem _ hmem)

/-- Splitting at a separator splits the pieces. -/
theorem Split_append_sep (xs ys : List Char) (sep : Char) :
    Split (xs ++ sep :: ys) sep = Split xs sep ++ Split ys sep := by
  induction xs with
  | nil => simp [Split]
  | cons c cs ih =>
    rw [List.cons_append]
    simp only [Split]
    rw [ih]
    split
    · rfl
    · obtain ⟨l, ls, hl⟩ := List.exists_cons_of_ne_nil (Split_ne_nil cs sep)
      rw [hl]
      rfl

/-- The first piece starts like the string, or is empty. -/
theorem head_Split (s : List Char) (sep : Char) :
    ∃ l ls, Split s sep = l :: ls ∧ (l.head? = none ∨ l.head? = s.head?) := by
  cases s with
  | nil => exact ⟨[], [], rfl, Or.inl rfl⟩
  | cons c cs =>
    simp only [Split]
    split
    · exact ⟨[], _, rfl, Or.inl rfl⟩
    · obtain ⟨l, ls, hl⟩ := List.exists_cons_of_ne_nil (Split_ne_nil cs sep)
      rw [hl]
      exact ⟨c :: l, ls, rfl, Or.inr rfl⟩

/-- The last piece ends like the string, or is empty. -/
theorem getLast_Split (s : List Char) (sep : Char) (l : List Char)
    (h : (Split s sep).getLast? = some l) : l.getLast? = none ∨ l.getLast? = s.getLast? := by
  induction s generalizing l with
  | nil =>
    simp [Split] at h
    subst h
    exact Or.inl rfl
  | cons c cs ih =>
    obtain ⟨l₀, ls, hl⟩ := List.exists_cons_of_ne_nil (Split_ne_nil cs sep)
    simp only [Split, hl] at h
    rw [hl] at ih
    split at h
    · rw [List.getLast?_cons_cons] at h
      rcases ih l h with h' | h'
      · exact Or.inl h'
      · cases cs with
        | nil =>
          simp [Split] at hl
          obtain ⟨rfl, rfl⟩ := hl
          simp at h
          subst h
          exact Or.inl rfl
        | cons d ds =>
          right
          rw [h', List.getLast?_cons_cons]
    · cases ls with
      | nil =>
        simp at h
        subst h
        have ih' := ih l₀ (by simp)
        cases cs with
        | nil =>
          simp [Split] at hl
          subst hl
          right; rfl
        | cons d ds =>
          cases l₀ with
          | nil =>
            -- a nonempty string does not split into one empty piece
            exfalso
            simp only [Split] at hl
            split at hl
            · simp only [List.cons.injEq, true_and] at hl
              exact Split_ne_nil _ _ hl
            · obtain ⟨l₁, ls₁, hl₁⟩ := List.exists_cons_of_ne_nil (Split_ne_nil ds sep)
              rw [hl₁] at hl
              simp at hl
          | cons e es =>
            right
            rw [List.getLast?_cons_cons, List.getLast?_cons_cons]
            rcases ih' with h' | h'
            · simp at h'
            · exact h'
      | cons y ys =>
        rw [List.getLast?_cons_cons] at h
        have ih' := ih l (by rw [List.getLast?_cons_cons]; exact h)
        rcases ih' with h' | h'
        · exact Or.inl h'
        · cases cs with
          | nil => simp [Split] at hl
          | cons d ds =>
            right
            rw [h', List.getLast?_cons_cons]

theorem TrimSpace_eq (s : List Char) :
    TrimSpace s = (s.dropWhile isSpace).rdropWhile isSpace := rfl

/-- The trimmed string does not begin with white space. -/
theorem beginsWithSpace_TrimSpace (s : List Char) : beginsWithSpace (TrimSpace s) = false := by
  have hpre : TrimSpace s <+: s.dropWhile isSpace := by
    rw [TrimSpace_eq]; exact List.rdropWhile_prefix isSpace _
  have hhead := List.head?_dropWhile_not isSpace s
  unfold beginsWithSpace
  cases ht : TrimSpace s with
  | nil => rfl
  | cons c cs =>
    obtain ⟨t, ht'⟩ := hpre
    rw [ht] at ht'
    rw [← ht'] at hhead
    simpa using hhead

/-- The trimmed string does not end with white space. -/
theorem endsWithSpace_TrimSpace (s : List Char) : endsWithSpace (TrimSpace s) = false := by
  unfold endsWithSpace
  cases hl : (TrimSpace s).getLast? with
  | none => rfl
  | some c =>
    have hne : TrimSpace s ≠ [] := by
      intro h; rw [h] at hl; simp at hl
    have hnot : ¬ isSpace ((TrimSpace s).getLast hne) = true :=
      List.rdropWhile_last_not isSpace (s.dropWhile isSpace) hne
    rw [List.getLast?_eq_getLast _ hne] at hl
    simp only [Option.some.injEq] at hl
    rw [hl] at hnot
    simpa using hnot

/-- The string is its trimmed part between leading and trailing white space. -/
theorem TrimSpace_decomp (s : List Char) :
    ∃ lead trail, (∀ x ∈ lead, isSpace x = true) ∧ (∀ x ∈ trail, isSpace x = true) ∧
      s = lead ++ TrimSpace s ++ trail := by
  refine ⟨s.takeWhile isSpace, (s.dropWhile isSpace).rtakeWhile isSpace, ?_, ?_, ?_⟩
  · intro x hx; exact List.mem_takeWhile_imp hx
  · intro x hx; exact List.mem_rtakeWhile_imp hx
  · have hr : ∀ l : List Char, l.rdropWhile isSpace ++ l.rtakeWhile isSpace = l := by
      intro l
      rw [List.rdropWhile, List.rtakeWhile, ← List.reverse_append,
        List.takeWhile_append_dropWhile, List.reverse_reverse]
    rw [List.append_assoc, TrimSpace_eq, hr, List.takeWhile_append_dropWhile]

theorem TrimSpace_of_all_space (s : List Char) (h : ∀ x ∈ s, isSpace x = true) :
    TrimSpace s = [] := by
  have : s.dropWhile isSpace = [] := List.dropWhile_eq_nil_iff.2 h
  simp [TrimSpace, this]

/-! ## Lemmas on `checkHealth` -/

/-- The record is returned exactly for a 200 response whose body decodes. -/
theorem checkHealth_ok_iff (client : HttpClient) (url : String) (hc : HealthCheck) :
    checkHealth client url = (hc, none) ↔
      ∃ resp, client url = .ok resp ∧ resp.StatusCode = 200 ∧ jsonDecode resp.Body = .ok hc := by
  unfold checkHealth
  cases hget : client url with
  | error err => simp
  | ok resp =>
    by_cases hst : resp.StatusCode = 200
    · cases hdec : jsonDecode resp.Body with
      | error e => simp [hst, hdec]
      | ok hc' => simp [hst, hdec]
    · simp [hst]

/-- An error comes with the zero record. -/
theorem checkHealth_error_zero (client : HttpClient) (url : String) (hc : HealthCheck)
    (e : ProbeError) (h : checkHealth client url = (hc, some e)) : hc = HealthCheck.zero := by
  unfold checkHealth at h
  cases hget : client url with
  | error err => simp [hget] at h; exact h.1.symm
  | ok resp =>
    simp only [hget] at h
    split at h
    · simp at h; exact h.1.symm
    · split at h
      · simp at h; exact h.1.symm
      · simp at h

/-- The error of each failing case. -/
theorem checkHealth_error_cases (client : HttpClient) (url : String) :
    (∀ err, client url = .error err →
      checkHealth client url = (HealthCheck.zero, some (.getFailed url err))) ∧
    (∀ resp, client url = .ok resp → resp.StatusCode ≠ 200 →
      checkHealth client url = (HealthCheck.zero, some (.non200 url resp.StatusCode))) ∧
    (∀ resp err, client url = .ok resp → resp.StatusCode = 200 →
      jsonDecode resp.Body = .error err →
      checkHealth client url = (HealthCheck.zero, some (.decodeFailed url err))) := by
  refine ⟨?_, ?_, ?_⟩
  · intro err h; simp [checkHealth, h]
  · intro resp h hst; simp [checkHealth, h, hst]
  · intro resp err h hst hdec; simp [checkHealth, h, hst, hdec]

/-- A body with the six fields in `int64` range decodes to the record. -/
theorem jsonDecode_healthzBody (hc : HealthCheck) (h1 : isInt64 hc.Uptime = true)
    (h2 : isInt64 hc.RequestCount = true) (h3 : isInt64 hc.ErrorCount = true)
    (h4 : isInt64 hc.SuccessCount = true) : jsonDecode (healthzBody hc) = .ok hc := by
  have k1 : fieldOfKey "application" = some .application := by decide
  have k2 : fieldOfKey "version" = some .version := by decide
  have k3 : fieldOfKey "uptime" = some .uptime := by decide
  have k4 : fieldOfKey "requestCount" = some .requestCount := by decide
  have k5 : fieldOfKey "errorCount" = some .errorCount := by decide
  have k6 : fieldOfKey "successCount" = some .successCount := by decide
  simp [jsonDecode, healthzBody, decodeMembers, decodeMember, k1, k2, k3, k4, k5, k6,
    decodeString, decodeInt64, h1, h2, h3, h4, Except.map, HealthCheck.zero]

theorem stringOf_nil (f : Field) (dflt : String) : stringOf f dflt [] = dflt := rfl

theorem intOf_nil (f : Field) (dflt : Int) : intOf f dflt [] = dflt := rfl

theorem stringOf_snoc (f : Field) (dflt : String) (members : List (String × Json))
    (key : String) (v : Json) :
    stringOf f dflt (members ++ [(key, v)]) =
      if fieldOfKey key = some f then v.stringOr (stringOf f dflt members)
      else stringOf f dflt members := by
  unfold stringOf
  rw [List.reverse_append]
  simp only [List.reverse_cons, List.reverse_nil, List.nil_append, List.singleton_append,
    List.find?_cons]
  by_cases hk : fieldOfKey key = some f
  · cases v <;> simp [hk, Json.isString, Json.stringOr]
  · simp [hk]

theorem intOf_snoc (f : Field) (dflt : Int) (members : List (String × Json))
    (key : String) (v : Json) :
    intOf f dflt (members ++ [(key, v)]) =
      if fieldOfKey key = some f then v.integerOr (intOf f dflt members)
      else intOf f dflt members := by
  unfold intOf
  rw [List.reverse_append]
  simp only [List.reverse_cons, List.reverse_nil, List.nil_append, List.singleton_append,
    List.find?_cons]
  by_cases hk : fieldOfKey key = some f
  · rcases v with _ | _ | (_ | n) | _ | _ | _ <;> simp [hk, Json.isInteger, Json.integerOr]
  · simp [hk]

theorem decodeMembers_snoc (hc : HealthCheck) (members : List (String × Json))
    (key : String) (v : Json) :
    decodeMembers hc (members ++ [(key, v)]) =
      match decodeMembers hc members with
      | .error e => .error e
      | .ok hc' => decodeMember hc' key v := by
  induction members generalizing hc with
  | nil =>
    simp only [List.nil_append, decodeMembers]
    cases decodeMember hc key v <;> rfl
  | cons m rest ih =>
    obtain ⟨k, w⟩ := m
    simp only [List.cons_append, decodeMembers]
    cases decodeMember hc k w with
    | error e => rfl
    | ok hc' => exact ih hc'

/-- A member of the wrong type is an error. -/
theorem decodeMember_rejected (hc : HealthCheck) (key : String) (v : Json)
    (h : memberAccepted key v = false) : ∃ e, decodeMember hc key v = .error e := by
  unfold memberAccepted at h
  unfold decodeMember
  rcases hk : fieldOfKey key with _ | f
  · simp [hk] at h
  · simp only [hk] at h
    cases f <;> rcases v with _ | _ | (_ | n) | _ | _ | _ <;>
      simp_all [Field.isString, decodeString, decodeInt64, Except.map]

/-- An accepted member updates the field of its key, unless it is `null`. -/
theorem decodeMember_accepted (hc : HealthCheck) (key : String) (v : Json)
    (h : memberAccepted key v = true) :
    decodeMember hc key v = .ok
      { Application :=
          if fieldOfKey key = some .application then v.stringOr hc.Application
          else hc.Application
        Version := if fieldOfKey key = some .version then v.stringOr hc.Version else hc.Version
        Uptime := if fieldOfKey key = some .uptime then v.integerOr hc.Uptime else hc.Uptime
        RequestCount :=
          if fieldOfKey key = some .requestCount then v.integerOr hc.RequestCount
          else hc.RequestCount
        ErrorCount :=
          if fieldOfKey key = some .errorCount then v.integerOr hc.ErrorCount
          else hc.ErrorCount
        SuccessCount :=
          if fieldOfKey key = some .successCount then v.integerOr hc.SuccessCount
          else hc.SuccessCount } := by
  unfold memberAccepted at h
  unfold decodeMember
  rcases hk : fieldOfKey key with _ | f
  · simp
  · simp only [hk] at h
    cases f <;> rcases v with _ | _ | (_ | n) | _ | _ | _ <;>
      simp_all [Field.isString, decodeString, decodeInt64, Except.map, Json.stringOr,
        Json.integerOr]

/-- An object without a member of the wrong type decodes to the record of the
last values. -/
theorem decodeMembers_accepted (hc : HealthCheck) (members : List (String × Json))
    (h : ∀ m ∈ members, memberAccepted m.1 m.2 = true) :
    decodeMembers hc members = .ok
      { Application := stringOf .application hc.Application members
        Version := stringOf .version hc.Version members
        Uptime := intOf .uptime hc.Uptime members
        RequestCount := intOf .requestCount hc.RequestCount members
        ErrorCount := intOf .errorCount hc.ErrorCount members
        SuccessCount := intOf .successCount hc.SuccessCount members } := by
  induction members using List.reverseRecOn with
  | nil => rfl
  | append_singleton xs m ih =>
    obtain ⟨key, v⟩ := m
    have hxs : ∀ m ∈ xs, memberAccepted m.1 m.2 = true :=
      fun m hm => h m (List.mem_append_left _ hm)
    have hm : memberAccepted key v = true := h (key, v) (by simp)
    rw [decodeMembers_snoc, ih hxs]
    simp only
    rw [decodeMember_accepted _ key v hm]
    simp only [stringOf_snoc, intOf_snoc]

/-- An object with a member of the wrong type is an error. -/
theorem decodeMembers_rejected (hc : HealthCheck) (members : List (String × Json))
    (h : ∃ m ∈ members, memberAccepted m.1 m.2 = false) :
    ∃ e, decodeMembers hc members = .error e := by
  induction members generalizing hc with
  | nil => simp at h
  | cons m rest ih =>
    obtain ⟨key, v⟩ := m
    simp only [decodeMembers]
    cases hd : decodeMember hc key v with
    | error e => exact ⟨e, rfl⟩
    | ok hc' =>
      simp only
      apply ih
      obtain ⟨m, hm, hrej⟩ := h
      rcases List.mem_cons.1 hm with rfl | hm
      · obtain ⟨e, he⟩ := decodeMember_rejected hc key v hrej
        rw [he] at hd; cases hd
      · exact ⟨m, hm, hrej⟩

/-- The decoder accepts exactly `null` and the objects all of whose members
are accepted. -/
theorem jsonDecode_ok_iff (body : Option Json) (hc : HealthCheck) :
    jsonDecode body = .ok hc ↔
      (body = some .null ∧ hc = HealthCheck.zero) ∨
      ∃ members, body = some (.object members) ∧
        (∀ m ∈ members, memberAccepted m.1 m.2 = true) ∧ hc = recordOf members := by
  constructor
  · intro h
    rcases body with _ | j
    · simp [jsonDecode] at h
    · cases j with
      | null => simp [jsonDecode] at h; exact Or.inl ⟨rfl, h.symm⟩
      | object members =>
        right
        refine ⟨members, rfl, ?_⟩
        simp only [jsonDecode] at h
        by_cases hall : ∀ m ∈ members, memberAccepted m.1 m.2 = true
        · rw [decodeMembers_accepted _ _ hall] at h
          simp only [Except.ok.injEq] at h
          exact ⟨hall, h.symm⟩
        · have : ∃ m ∈ members, memberAccepted m.1 m.2 = false := by
            by_contra hne
            apply hall
            intro m hm
            by_contra hm'
            exact hne ⟨m, hm, by simpa using hm'⟩
          obtain ⟨e, he⟩ := decodeMembers_rejected HealthCheck.zero members this
          rw [he] at h; cases h
      | _ => simp [jsonDecode] at h
  · rintro (⟨rfl, rfl⟩ | ⟨members, rfl, hall, rfl⟩)
    · rfl
    · simp only [jsonDecode]
      exact decodeMembers_accepted _ _ hall

/-- A key names a field exactly when it equals the field's name up to case. -/
theorem fieldOfKey_eq_some_iff (key : String) (f : Field) :
    fieldOfKey key = some f ↔ foldName f.name = foldName key := by
  constructor
  · intro h
    have := List.find?_some h
    simpa using this
  · intro h
    unfold fieldOfKey
    rw [← h]
    cases f <;> decide

theorem fieldOfKey_eq_none_iff (key : String) :
    fieldOfKey key = none ↔ ∀ f : Field, foldName f.name ≠ foldName key := by
  constructor
  · intro h f hf
    rw [(fieldOfKey_eq_some_iff key f).2 hf] at h
    cases h
  · intro h
    cases hk : fieldOfKey key with
    | none => rfl
    | some f => exact absurd ((fieldOfKey_eq_some_iff key f).1 hk) (h f)

/-- The acceptance condition, case by case. -/
theorem memberAccepted_iff (key : String) (v : Json) :
    memberAccepted key v = true ↔
      fieldOfKey key = none ∨ v = .null ∨
      ((fieldOfKey key = some .application ∨ fieldOfKey key = some .version) ∧
        ∃ s, v = .string s) ∨
      ((fieldOfKey key = some .uptime ∨ fieldOfKey key = some .requestCount ∨
          fieldOfKey key = some .errorCount ∨ fieldOfKey key = some .successCount) ∧
        ∃ n : Int, v = .number (some n) ∧ -(2 ^ 63) ≤ n ∧ n < 2 ^ 63) := by
  unfold memberAccepted
  rcases hk : fieldOfKey key with _ | f
  · simp
  · cases f <;> rcases v with _ | _ | (_ | n) | _ | _ | _ <;>
      simp [Field.isString, isInt64]

/-! ## Lemmas on the worker pool -/

theorem list_split_at {α : Type} (l : List α) (i : Nat) (w : α) (h : l[i]? = some w) :
    ∃ l₁ l₂, l = l₁ ++ w :: l₂ ∧ l₁.length = i ∧ ∀ w', l.set i w' = l₁ ++ w' :: l₂ := by
  induction l generalizing i with
  | nil => simp at h
  | cons x xs ih =>
    cases i with
    | zero =>
      simp at h
      subst h
      exact ⟨[], xs, rfl, rfl, fun _ => rfl⟩
    | succ j =>
      simp at h
      obtain ⟨l₁, l₂, e, hl, hs⟩ := ih j h
      refine ⟨x :: l₁, l₂, by simp [e], by simp [hl], ?_⟩
      intro w'
      simp [hs w']

theorem step_sound {probe : Probe} {s s' : Pool} {a : Action}
    (h : step probe s a = some s') : Step probe s s' := by
  cases a with
  | main =>
    simp only [step, stepMain] at h
    split at h
    · rename_i i hpc
      split at h
      · rename_i hi
        cases h
        exact Step.add s i hpc hi
      · rename_i hi
        cases h
        exact Step.startCloser s i hpc hi
    · rename_i i hpc
      cases h
      exact Step.spawn s i hpc
    · rename_i hpc
      split at h
      · rename_i hc rest hres
        cases h
        exact Step.collect s hc rest hpc hres
      · rename_i hres
        split at h
        · rename_i hcl
          cases h
          exact Step.ret s hpc hres hcl
        · cases h
    · cases h
  | closer =>
    simp only [step, stepCloser] at h
    split at h
    · cases h
    · rename_i hpc
      split at h
      · rename_i hwg
        cases h
        exact Step.waitDone s hpc hwg
      · cases h
    · rename_i hpc
      split at h
      · cases h
      · rename_i hcl
        cases h
        exact Step.close s hpc (by simpa using hcl)
    · cases h
  | worker i =>
    simp only [step, stepWorker] at h
    split at h
    · cases h
    · rename_i hw
      obtain ⟨l₁, l₂, e, hl, hs⟩ := list_split_at _ _ _ hw
      split at h
      · rename_i server rest hq
        cases h
        rw [hs, ← hl]
        exact Step.dequeue s l₁ l₂ server rest e hq
      · rename_i hq
        split at h
        · cases h
        · rename_i hwg
          cases h
          rw [hs]
          exact Step.exit s l₁ l₂ e hq hwg
    · rename_i server hw
      obtain ⟨l₁, l₂, e, hl, hs⟩ := list_split_at _ _ _ hw
      split at h
      · rename_i hc hp
        cases h
        rw [hs, ← hl]
        exact Step.probeOk s l₁ l₂ server hc e hp
      · rename_i hc err hp
        cases h
        rw [hs, ← hl]
        exact Step.probeFail s l₁ l₂ server hc err e hp
    · rename_i hc hw
      obtain ⟨l₁, l₂, e, hl, hs⟩ := list_split_at _ _ _ hw
      split at h
      · cases h
      · rename_i hcl
        split at h
        · rename_i hlen
          cases h
          rw [hs]
          exact Step.send s l₁ l₂ hc e (by simpa using hcl) hlen
        · cases h
    · cases h

@[simp] theorem probing_append (l₁ l₂ : List Worker) :
    probing (l₁ ++ l₂) = probing l₁ ++ probing l₂ := by
  induction l₁ with
  | nil => rfl
  | cons w ws ih => cases w <;> simp [probing, ih]

@[simp] theorem sending_append (l₁ l₂ : List Worker) :
    sending (l₁ ++ l₂) = sending l₁ ++ sending l₂ := by
  induction l₁ with
  | nil => rfl
  | cons w ws ih => cases w <;> simp [sending, ih]

@[simp] theorem liveCount_append (l₁ l₂ : List Worker) :
    liveCount (l₁ ++ l₂) = liveCount l₁ + liveCount l₂ := by
  induction l₁ with
  | nil => simp [liveCount]
  | cons w ws ih => cases w <;> simp [liveCount, ih] <;> omega

theorem probingFrom_append (k : Nat) (l₁ l₂ : List Worker) :
    probingFrom k (l₁ ++ l₂) = probingFrom k l₁ ++ probingFrom (k + l₁.length) l₂ := by
  induction l₁ generalizing k with
  | nil => simp [probingFrom]
  | cons w ws ih =>
    cases w <;> simp [probingFrom, ih, Nat.add_assoc, Nat.add_comm 1]

theorem liveCount_le (l : List Worker) : liveCount l ≤ l.length := by
  induction l with
  | nil => simp [liveCount]
  | cons w ws ih => cases w <;> simp [liveCount] <;> omega

theorem okRecord_of_ok {probe : Probe} {server : String} {hc : HealthCheck}
    (h : probe (healthzURL server) = (hc, none)) : okRecord probe server = some hc := by
  simp [okRecord, h]

theorem okRecord_of_fail {probe : Probe} {server : String} {hc : HealthCheck} {e : ProbeError}
    (h : probe (healthzURL server) = (hc, some e)) : okRecord probe server = none := by
  simp [okRecord, h]

theorem probeFails_of_ok {probe : Probe} {server : String} {hc : HealthCheck}
    (h : probe (healthzURL server) = (hc, none)) : probeFails probe server = false := by
  simp [probeFails, h]

theorem probeFails_of_fail {probe : Probe} {server : String} {hc : HealthCheck} {e : ProbeError}
    (h : probe (healthzURL server) = (hc, some e)) : probeFails probe server = true := by
  simp [probeFails, h]

theorem poolInv_init (probe : Probe) (servers : List String) :
    PoolInv probe servers (Pool.init servers) := by
  constructor <;> simp [Pool.init, probing, sending, liveCount, probingFrom, workerCount]

theorem poolInv_step {probe : Probe} {servers : List String} {s s' : Pool}
    (h : PoolInv probe servers s) (hs : Step probe s s') : PoolInv probe servers s' := by
  obtain ⟨cap, pcLoop, pcAdded, pcLate, wgCount, closerDone, closedIff, drained, afterReturn,
    count, records, failures, queue, probedOnce, workerIdx⟩ := h
  cases hs with
  | add i hpc hi =>
    obtain ⟨h1, h2, h3⟩ := pcLoop i hpc
    exact {
      cap := cap
      pcLoop := fun j hj => by cases hj
      pcAdded := fun j hj => by cases hj; exact ⟨h1, hi, h3⟩
      pcLate := fun hj => by rcases hj with hj | hj <;> cases hj
      wgCount := by simp [hpc] at wgCount ⊢; exact wgCount
      closerDone := closerDone
      closedIff := closedIff
      drained := drained
      afterReturn := fun hj => by cases hj
      count := count
      records := records
      failures := failures
      queue := queue
      probedOnce := probedOnce
      workerIdx := workerIdx }
  | startCloser i hpc hi =>
    obtain ⟨h1, h2, h3⟩ := pcLoop i hpc
    exact {
      cap := cap
      pcLoop := fun j hj => by cases hj
      pcAdded := fun j hj => by cases hj
      pcLate := fun _ => ⟨by show s.workers.length = workerCount; omega, by simp⟩
      wgCount := by simp [hpc] at wgCount ⊢; exact wgCount
      closerDone := fun hj => by rcases hj with hj | hj <;> cases hj
      closedIff := by
        show s.resultsClosed = true ↔ Closer.waiting = Closer.finished
        rw [closedIff, h3]; simp
      drained := drained
      afterReturn := fun hj => by cases hj
      count := count
      records := records
      failures := failures
      queue := queue
      probedOnce := probedOnce
      workerIdx := workerIdx }
  | spawn i hpc =>
    obtain ⟨h1, h2, h3⟩ := pcAdded i hpc
    exact {
      cap := cap
      pcLoop := fun j hj => by cases hj; exact ⟨by simp [h1], by omega, h3⟩
      pcAdded := fun j hj => by cases hj
      pcLate := fun hj => by rcases hj with hj | hj <;> cases hj
      wgCount := by simp [hpc, liveCount] at wgCount ⊢; exact wgCount
      closerDone := fun hj => by
        have hj' : s.closer = Closer.closing ∨ s.closer = Closer.finished := hj
        rw [h3] at hj'; rcases hj' with hj' | hj' <;> cases hj'
      closedIff := closedIff
      drained := fun hj => by
        simp [liveCount] at hj
        exact drained hj
      afterReturn := fun hj => by cases hj
      count := by simpa [probing, sending] using count
      records := by simpa [probing, sending] using records
      failures := by simpa [probing, sending] using failures
      queue := queue
      probedOnce := by simpa [probingFrom_append, probingFrom] using probedOnce
      workerIdx := fun p hp => by
        have := workerIdx p hp
        simp only [List.length_append, List.length_singleton]
        omega }
  | collect hc rest hpc hres =>
    exact {
      cap := cap
      pcLoop := pcLoop
      pcAdded := pcAdded
      pcLate := pcLate
      wgCount := wgCount
      closerDone := closerDone
      closedIff := closedIff
      drained := drained
      afterReturn := fun hj => by
        have hj' : s.main = MainPc.returned := hj
        rw [hpc] at hj'; cases hj'
      count := by simp [hres] at count ⊢; omega
      records := fun x => by
        have := records x
        simp only [hres, List.count_cons, List.count_append, List.count_nil] at this ⊢
        omega
      failures := failures
      queue := queue
      probedOnce := probedOnce
      workerIdx := workerIdx }
  | ret hpc hres hcl =>
    exact {
      cap := cap
      pcLoop := fun j hj => by cases hj
      pcAdded := fun j hj => by cases hj
      pcLate := fun _ => pcLate (Or.inl hpc)
      wgCount := by simp [hpc] at wgCount ⊢; exact wgCount
      closerDone := closerDone
      closedIff := closedIff
      drained := drained
      afterReturn := fun _ => ⟨hcl, hres⟩
      count := count
      records := records
      failures := failures
      queue := queue
      probedOnce := probedOnce
      workerIdx := workerIdx }
  | waitDone hpc hwg =>
    exact {
      cap := cap
      pcLoop := fun j hj => by
        have := (pcLoop j hj).2.2
        rw [hpc] at this; cases this
      pcAdded := fun j hj => by
        have := (pcAdded j hj).2.2
        rw [hpc] at this; cases this
      pcLate := fun hj => ⟨(pcLate hj).1, by simp⟩
      wgCount := wgCount
      closerDone := fun _ => by
        have := wgCount
        rw [hwg] at this
        show liveCount s.workers = 0
        omega
      closedIff := by
        show s.resultsClosed = true ↔ Closer.closing = Closer.finished
        rw [closedIff, hpc]; simp
      drained := drained
      afterReturn := afterReturn
      count := count
      records := records
      failures := failures
      queue := queue
      probedOnce := probedOnce
      workerIdx := workerIdx }
  | close hpc hcl =>
    exact {
      cap := cap
      pcLoop := fun j hj => by
        have := (pcLoop j hj).2.2
        rw [hpc] at this; cases this
      pcAdded := fun j hj => by
        have := (pcAdded j hj).2.2
        rw [hpc] at this; cases this
      pcLate := fun hj => ⟨(pcLate hj).1, by simp⟩
      wgCount := wgCount
      closerDone := fun _ => closerDone (Or.inl hpc)
      closedIff := by simp
      drained := drained
      afterReturn := fun hj => ⟨rfl, (afterReturn hj).2⟩
      count := count
      records := records
      failures := failures
      queue := queue
      probedOnce := probedOnce
      workerIdx := workerIdx }
  | dequeue l₁ l₂ server rest hw hq =>
    have hlen : (l₁ ++ Worker.probe server :: l₂).length = s.workers.length := by simp [hw]
    have hlive : liveCount (l₁ ++ Worker.probe server :: l₂) = liveCount s.workers := by
      simp [hw, liveCount]
    exact {
      cap := cap
      pcLoop := fun j hj => by have := pcLoop j hj; rw [← hlen] at this; exact this
      pcAdded := fun j hj => by have := pcAdded j hj; rw [← hlen] at this; exact this
      pcLate := fun hj => by have := pcLate hj; rw [← hlen] at this; exact this
      wgCount := by rw [← hlive] at wgCount; exact wgCount
      closerDone := fun hj => by have := closerDone hj; rw [← hlive] at this; exact this
      closedIff := closedIff
      drained := fun hj => by
        have h' : liveCount s.workers < s.workers.length := by
          rw [← hlive, ← hlen]; exact hj
        have := drained h'
        rw [hq] at this; cases this
      afterReturn := afterReturn
      count := by
        simp [hw, hq, probing, sending] at count ⊢; omega
      records := fun x => by
        have := records x
        simp only [hw, hq, probing_append, sending_append, probing, sending,
          List.filterMap_cons, List.filterMap_append] at this ⊢
        cases hok : okRecord probe server <;>
          simp only [hok, List.count_cons, List.count_append] at this ⊢ <;> omega
      failures := fun a => by
        have := failures a
        simp only [hw, hq, probing_append, probing, List.filter_cons, List.filter_append]
          at this ⊢
        cases hf : probeFails probe server <;>
          simp only [hf, List.count_cons, List.count_append, if_true, if_false,
            Bool.false_eq_true] at this ⊢ <;> omega
      queue := by
        simp [hq] at queue ⊢; exact queue
      probedOnce := fun p => by
        have := probedOnce p
        simp only [hw, probingFrom_append, probingFrom, List.count_cons, List.count_append,
          List.count_nil, Nat.zero_add] at this ⊢
        omega
      workerIdx := fun p hp => by
        rw [hlen]
        rcases List.mem_append.1 hp with hp | hp
        · exact workerIdx p hp
        · simp at hp; subst hp; simp [hw] }
  | exit l₁ l₂ hw hq hwg =>
    have hlen : (l₁ ++ Worker.exited :: l₂).length = s.workers.length := by simp [hw]
    have hlive : liveCount (l₁ ++ Worker.exited :: l₂) + 1 = liveCount s.workers := by
      simp [hw, liveCount]; omega
    exact {
      cap := cap
      pcLoop := fun j hj => by have := pcLoop j hj; rw [← hlen] at this; exact this
      pcAdded := fun j hj => by have := pcAdded j hj; rw [← hlen] at this; exact this
      pcLate := fun hj => by have := pcLate hj; rw [← hlen] at this; exact this
      wgCount := by
        dsimp only
        omega
      closerDone := fun hj => by have := closerDone hj; omega
      closedIff := closedIff
      drained := fun _ => hq
      afterReturn := afterReturn
      count := by simpa [hw, probing, sending] using count
      records := by simpa [hw, probing, sending] using records
      failures := by simpa [hw, probing, sending] using failures
      queue := queue
      probedOnce := by simpa [hw, probingFrom_append, probingFrom] using probedOnce
      workerIdx := fun p hp => by rw [hlen]; exact workerIdx p hp }
  | probeOk l₁ l₂ server hc hw hp =>
    have hlen : (l₁ ++ Worker.send hc :: l₂).length = s.workers.length := by simp [hw]
    have hlive : liveCount (l₁ ++ Worker.send hc :: l₂) = liveCount s.workers := by
      simp [hw, liveCount]
    have hok := okRecord_of_ok hp
    have hnf := probeFails_of_ok hp
    exact {
      cap := cap
      pcLoop := fun j hj => by have := pcLoop j hj; rw [← hlen] at this; exact this
      pcAdded := fun j hj => by have := pcAdded j hj; rw [← hlen] at this; exact this
      pcLate := fun hj => by have := pcLate hj; rw [← hlen] at this; exact this
      wgCount := by rw [← hlive] at wgCount; exact wgCount
      closerDone := fun hj => by have := closerDone hj; rw [← hlive] at this; exact this
      closedIff := closedIff
      drained := fun hj => drained (by rw [← hlive, ← hlen]; exact hj)
      afterReturn := afterReturn
      count := by
        simp [hw, probing, sending] at count ⊢; omega
      records := fun x => by
        have := records x
        simp only [hw, probing_append, sending_append, probing, sending,
          List.filterMap_cons, List.filterMap_append, hok, List.count_cons,
          List.count_append] at this ⊢
        omega
      failures := fun a => by
        have := failures a
        simp only [hw, probing_append, probing, List.filter_cons, List.filter_append, hnf,
          List.count_append, if_false, Bool.false_eq_true] at this ⊢
        omega
      queue := queue
      probedOnce := fun p => by
        have := probedOnce p
        simp only [hw, probingFrom_append, probingFrom, List.count_cons, List.count_append,
          List.count_nil, Nat.zero_add] at this ⊢
        omega
      workerIdx := fun p hp => by rw [hlen]; exact workerIdx p hp }
  | probeFail l₁ l₂ server hc e hw hp =>
    have hlen : (l₁ ++ Worker.recv :: l₂).length = s.workers.length := by simp [hw]
    have hlive : liveCount (l₁ ++ Worker.recv :: l₂) = liveCount s.workers := by
      simp [hw, liveCount]
    have hok := okRecord_of_fail hp
    have hnf := probeFails_of_fail hp
    exact {
      cap := cap
      pcLoop := fun j hj => by have := pcLoop j hj; rw [← hlen] at this; exact this
      pcAdded := fun j hj => by have := pcAdded j hj; rw [← hlen] at this; exact this
      pcLate := fun hj => by have := pcLate hj; rw [← hlen] at this; exact this
      wgCount := by rw [← hlive] at wgCount; exact wgCount
      closerDone := fun hj => by have := closerDone hj; rw [← hlive] at this; exact this
      closedIff := closedIff
      drained := fun hj => drained (by rw [← hlive, ← hlen]; exact hj)
      afterReturn := afterReturn
      count := by
        simp [hw, probing, sending] at count ⊢; omega
      records := fun x => by
        have := records x
        simp only [hw, probing_append, sending_append, probing, sending,
          List.filterMap_cons, List.filterMap_append, hok, List.count_cons,
          List.count_append] at this ⊢
        omega
      failures := fun a => by
        have := failures a
        simp only [hw, probing_append, probing, List.filter_cons, List.filter_append, hnf,
          List.count_append, List.count_cons, List.count_nil, if_true] at this ⊢
        omega
      queue := queue
      probedOnce := fun p => by
        have := probedOnce p
        simp only [hw, probingFrom_append, probingFrom, List.count_cons, List.count_append,
          List.count_nil, Nat.zero_add] at this ⊢
        omega
      workerIdx := fun p hp => by rw [hlen]; exact workerIdx p hp }
  | send l₁ l₂ hc hw hcl hlt =>
    have hlen : (l₁ ++ Worker.recv :: l₂).length = s.workers.length := by simp [hw]
    have hlive : liveCount (l₁ ++ Worker.recv :: l₂) = liveCount s.workers := by
      simp [hw, liveCount]
    exact {
      cap := cap
      pcLoop := fun j hj => by have := pcLoop j hj; rw [← hlen] at this; exact this
      pcAdded := fun j hj => by have := pcAdded j hj; rw [← hlen] at this; exact this
      pcLate := fun hj => by have := pcLate hj; rw [← hlen] at this; exact this
      wgCount := by rw [← hlive] at wgCount; exact wgCount
      closerDone := fun hj => by have := closerDone hj; rw [← hlive] at this; exact this
      closedIff := closedIff
      drained := fun hj => drained (by rw [← hlive, ← hlen]; exact hj)
      afterReturn := fun hj => by
        have := (afterReturn hj).1
        rw [hcl] at this; cases this
      count := by
        simp [hw, probing, sending] at count ⊢; omega
      records := fun x => by
        have := records x
        simp only [hw, probing_append, sending_append, probing, sending,
          List.count_cons, List.count_append, List.count_nil] at this ⊢
        omega
      failures := by simpa [hw, probing] using failures
      queue := queue
      probedOnce := by simpa [hw, probingFrom_append, probingFrom] using probedOnce
      workerIdx := fun p hp => by rw [hlen]; exact workerIdx p hp }

theorem poolInv_exec {probe : Probe} {servers : List String} {s s' : Pool} {sched : List Action}
    (h : PoolInv probe servers s) (he : exec probe s sched = some s') :
    PoolInv probe servers s' := by
  induction sched generalizing s with
  | nil => simp only [exec, Option.some.injEq] at he; exact he ▸ h
  | cons a rest ih =>
    simp only [exec] at he
    split at he
    · cases he
    · rename_i s₁ hs
      exact ih (poolInv_step h (step_sound hs)) he

theorem poolInv_of_reachable {probe : Probe} {servers : List String} {s : Pool}
    (h : Reachable probe servers s) : PoolInv probe servers s := by
  obtain ⟨sched, he⟩ := h
  exact poolInv_exec (poolInv_init probe servers) he

theorem reachable_init (probe : Probe) (servers : List String) :
    Reachable probe servers (Pool.init servers) := ⟨[], rfl⟩

theorem exec_append {probe : Probe} {s s' : Pool} {xs ys : List Action}
    (h : exec probe s xs = some s') : exec probe s (xs ++ ys) = exec probe s' ys := by
  induction xs generalizing s with
  | nil => simp only [exec, Option.some.injEq] at h; subst h; rfl
  | cons a rest ih =>
    simp only [exec, List.cons_append] at h ⊢
    split at h
    · cases h
    · exact ih h

theorem reachable_step {probe : Probe} {servers : List String} {s s' : Pool} {a : Action}
    (h : Reachable probe servers s) (hs : step probe s a = some s') :
    Reachable probe servers s' := by
  obtain ⟨sched, he⟩ := h
  refine ⟨sched ++ [a], ?_⟩
  rw [exec_append he]
  simp [exec, hs]

@[simp] theorem weight_sum_append (l₁ l₂ : List Worker) :
    ((l₁ ++ l₂).map Worker.weight).sum
      = (l₁.map Worker.weight).sum + (l₂.map Worker.weight).sum := by
  simp

/-- Every step uses up the measure. -/
theorem measure_step {probe : Probe} {servers : List String} {s s' : Pool}
    (h : PoolInv probe servers s) (hs : Step probe s s') : s'.measure < s.measure := by
  cases hs with
  | add i hpc hi =>
    simp only [Pool.measure, hpc, MainPc.weight]; omega
  | startCloser i hpc hi =>
    have := (h.pcLoop i hpc).2.2
    simp only [Pool.measure, hpc, this, MainPc.weight, Closer.weight]; omega
  | spawn i hpc =>
    have := (h.pcAdded i hpc).2.1
    simp only [Pool.measure, hpc, MainPc.weight, List.map_append, List.sum_append,
      List.map_cons, List.map_nil, List.sum_cons, List.sum_nil, Worker.weight]
    omega
  | collect hc rest hpc hres =>
    simp only [Pool.measure, hres, List.length_cons]; omega
  | ret hpc hres hcl =>
    simp only [Pool.measure, hpc, MainPc.weight]; omega
  | waitDone hpc hwg =>
    simp only [Pool.measure, hpc, Closer.weight]; omega
  | close hpc hcl =>
    simp only [Pool.measure, hpc, Closer.weight]; omega
  | dequeue l₁ l₂ server rest hw hq =>
    simp only [Pool.measure, hw, hq, List.map_append, List.sum_append,
      List.map_cons, List.sum_cons, Worker.weight, List.length_cons]
    omega
  | exit l₁ l₂ hw hq hwg =>
    simp only [Pool.measure, hw, List.map_append, List.sum_append,
      List.map_cons, List.sum_cons, Worker.weight]
    omega
  | probeOk l₁ l₂ server hc hw hp =>
    simp only [Pool.measure, hw, List.map_append, List.sum_append,
      List.map_cons, List.sum_cons, Worker.weight]
    omega
  | probeFail l₁ l₂ server hc e hw hp =>
    simp only [Pool.measure, hw, List.map_append, List.sum_append,
      List.map_cons, List.sum_cons, Worker.weight]
    omega
  | send l₁ l₂ hc hw hcl hlt =>
    simp only [Pool.measure, hw, List.map_append, List.sum_append,
      List.map_cons, List.sum_cons, Worker.weight, List.length_append, List.length_singleton]
    omega

/-- A schedule is no longer than the measure it uses up. -/
theorem exec_length_le {probe : Probe} {servers : List String} {s s' : Pool}
    {sched : List Action} (h : PoolInv probe servers s) (he : exec probe s sched = some s') :
    sched.length + s'.measure ≤ s.measure := by
  induction sched generalizing s with
  | nil => simp only [exec, Option.some.injEq] at he; subst he; simp
  | cons a rest ih =>
    simp only [exec] at he
    split at he
    · cases he
    · rename_i s₁ hs
      have h1 := measure_step h (step_sound hs)
      have h2 := ih (poolInv_step h (step_sound hs)) he
      simp only [List.length_cons]
      omega

theorem measure_init (servers : List String) :
    (Pool.init servers).measure = 4 * servers.length + 3 * workerCount + 4 := by
  simp [Pool.measure, Pool.init, MainPc.weight, Closer.weight, workerCount]

theorem liveCount_eq_zero {ws : List Worker} (h : liveCount ws = 0) :
    (∀ w ∈ ws, w = Worker.exited) ∧ probing ws = [] ∧ sending ws = [] ∧
      ∀ k, probingFrom k ws = [] := by
  induction ws with
  | nil => simp [probing, sending, probingFrom]
  | cons w ws ih =>
    cases w <;> simp [liveCount] at h
    obtain ⟨h1, h2, h3, h4⟩ := ih h
    refine ⟨?_, by simp [probing, h2], by simp [sending, h3], fun k => by simp [probingFrom, h4]⟩
    intro w hw
    rcases List.mem_cons.1 hw with rfl | hw
    · rfl
    · exact h1 w hw

theorem exists_live {ws : List Worker} (h : liveCount ws ≠ 0) :
    ∃ (i : Nat) (w : Worker), ws[i]? = some w ∧ w ≠ Worker.exited := by
  induction ws with
  | nil => simp [liveCount] at h
  | cons w ws ih =>
    by_cases hw : w = Worker.exited
    · subst hw
      simp only [liveCount] at h
      obtain ⟨i, w', h1, h2⟩ := ih h
      exact ⟨i + 1, w', by simpa using h1, h2⟩
    · exact ⟨0, w, by simp, hw⟩

theorem liveCount_pos_of_get {ws : List Worker} {i : Nat} {w : Worker}
    (h : ws[i]? = some w) (hw : w ≠ Worker.exited) : liveCount ws ≠ 0 := by
  obtain ⟨l₁, l₂, e, -, -⟩ := list_split_at ws i w h
  subst e
  cases w <;> simp [liveCount] at hw ⊢

/-- The facts that hold once the closing goroutine is past `wg.Wait()`. -/
theorem closer_facts {probe : Probe} {servers : List String} {s : Pool}
    (h : PoolInv probe servers s) (hc : s.closer = .closing ∨ s.closer = .finished) :
    s.workers.length = workerCount ∧ (∀ w ∈ s.workers, w = Worker.exited) ∧
      s.serverChan = [] ∧ probing s.workers = [] ∧ sending s.workers = [] ∧
      probingFrom 0 s.workers = [] := by
  have hlive := h.closerDone hc
  have hlen : s.workers.length = workerCount := by
    rcases hm : s.main with i | i | _ | _
    · have := (h.pcLoop i hm).2.2
      rw [this] at hc; rcases hc with hc | hc <;> cases hc
    · have := (h.pcAdded i hm).2.2
      rw [this] at hc; rcases hc with hc | hc <;> cases hc
    · exact (h.pcLate (Or.inl hm)).1
    · exact (h.pcLate (Or.inr hm)).1
  obtain ⟨h1, h2, h3, h4⟩ := liveCount_eq_zero hlive
  refine ⟨hlen, h1, h.drained ?_, h2, h3, h4 0⟩
  rw [hlive, hlen]
  decide

/-- A worker that has not exited can always take its step: a receive from the
closed `serverChan` never blocks, and a send finds room in `results`. -/
theorem worker_enabled {probe : Probe} {servers : List String} {s : Pool}
    (h : PoolInv probe servers s) {i : Nat} {w : Worker} (hw : s.workers[i]? = some w)
    (hne : w ≠ Worker.exited) : ∃ s', step probe s (.worker i) = some s' := by
  have hlive := liveCount_pos_of_get hw hne
  obtain ⟨l₁, l₂, e, -, -⟩ := list_split_at _ i w hw
  cases w with
  | recv =>
    simp only [step, stepWorker, hw]
    cases hq : s.serverChan with
    | nil =>
      have : s.wg ≠ 0 := by have := h.wgCount; omega
      simp [this]
    | cons a rest => simp
  | probe server =>
    simp only [step, stepWorker, hw]
    rcases hp : probe (healthzURL server) with ⟨hc, _ | e⟩ <;> simp
  | send hc =>
    simp only [step, stepWorker, hw]
    have hcl : s.resultsClosed = false := by
      by_contra hcl
      have hcl' : s.resultsClosed = true := by simpa using hcl
      have := h.closerDone (Or.inr (h.closedIff.1 hcl'))
      exact hlive this
    have hlt : s.results.length < s.resultsCap := by
      have := h.count
      rw [h.cap]
      simp only [e, sending_append, sending, List.length_append, List.length_cons] at this
      omega
    simp [hcl, hlt]
  | exited => exact absurd rfl hne

/-- No deadlock: before the caller has returned some goroutine can step. -/
theorem progress {probe : Probe} {servers : List String} {s : Pool}
    (h : PoolInv probe servers s) (hm : s.main ≠ .returned) :
    ∃ a s', step probe s a = some s' := by
  rcases hpc : s.main with i | i | _ | _
  · refine ⟨.main, ?_⟩
    simp only [step, stepMain, hpc]
    split <;> simp
  · exact ⟨.main, by simp [step, stepMain, hpc]⟩
  · cases hres : s.results with
    | cons hc rest => exact ⟨.main, by simp [step, stepMain, hpc, hres]⟩
    | nil =>
      cases hcl : s.resultsClosed with
      | true => exact ⟨.main, by simp [step, stepMain, hpc, hres, hcl]⟩
      | false =>
        have hlate := h.pcLate (Or.inl hpc)
        rcases hcc : s.closer with _ | _ | _ | _
        · exact absurd hcc hlate.2
        · by_cases hwg : s.wg = 0
          · exact ⟨.closer, by simp [step, stepCloser, hcc, hwg]⟩
          · have hlive : liveCount s.workers ≠ 0 := by
              have := h.wgCount
              simp only [hpc] at this
              omega
            obtain ⟨i, w, hw, hne⟩ := exists_live hlive
            exact ⟨.worker i, worker_enabled h hw hne⟩
        · exact ⟨.closer, by simp [step, stepCloser, hcc, hcl]⟩
        · have := h.closedIff.2 hcc
          rw [hcl] at this; cases this
  · exact absurd hpc hm

/-- After the return nothing is left to run. -/
theorem returned_terminal {probe : Probe} {servers : List String} {s : Pool}
    (h : PoolInv probe servers s) (hm : s.main = .returned) (a : Action) :
    step probe s a = none := by
  have hcl := (h.afterReturn hm).1
  have hfin := h.closedIff.1 hcl
  obtain ⟨-, hall, -⟩ := closer_facts h (Or.inr hfin)
  cases a with
  | main => simp [step, stepMain, hm]
  | closer => simp [step, stepCloser, hfin]
  | worker i =>
    simp only [step, stepWorker]
    cases hw : s.workers[i]? with
    | none => rfl
    | some w =>
      have := hall w (List.getElem?_mem hw)
      subst this
      rfl

theorem count_lawful {α : Type} [DecidableEq α] (inst : BEq α) [@LawfulBEq α inst]
    (a : α) (l : List α) :
    @List.count α instBEqOfDecidableEq a l = @List.count α inst a l := by
  induction l with
  | nil => rfl
  | cons x xs ih =>
    rw [@List.count_cons _ instBEqOfDecidableEq, @List.count_cons _ inst, ih]
    congr 1
    have hb : (@BEq.beq α inst x a) = (@BEq.beq α instBEqOfDecidableEq x a) := by
      by_cases h : x = a
      · subst h
        rw [@LawfulBEq.rfl α inst, @LawfulBEq.rfl α instBEqOfDecidableEq]
      · have h1 : (@BEq.beq α inst x a) = false := by
          cases hb : (@BEq.beq α inst x a)
          · rfl
          · exact absurd (@LawfulBEq.eq_of_beq α inst _ _ _ hb) h
        have h2 : (@BEq.beq α instBEqOfDecidableEq x a) = false := by
          cases hb : (@BEq.beq α instBEqOfDecidableEq x a)
          · rfl
          · exact absurd (@LawfulBEq.eq_of_beq α instBEqOfDecidableEq _ _ _ hb) h
        rw [h1, h2]
    rw [hb]

theorem perm_of_count {α : Type} [DecidableEq α] (inst : BEq α) [@LawfulBEq α inst]
    {l₁ l₂ : List α} (h : ∀ a, @List.count α inst a l₁ = @List.count α inst a l₂) :
    l₁.Perm l₂ := by
  rw [List.perm_iff_count]
  intro a
  rw [count_lawful inst, count_lawful inst]
  exact h a
theorem workers_length_le {probe : Probe} {servers : List String} {s : Pool}
    (h : PoolInv probe servers s) : s.workers.length ≤ workerCount := by
  rcases hm : s.main with i | i | _ | _
  · have := h.pcLoop i hm; omega
  · have := h.pcAdded i hm; omega
  · have := h.pcLate (Or.inl hm); omega
  · have := h.pcLate (Or.inr hm); omega

theorem progress_allActions {probe : Probe} {servers : List String} {s : Pool}
    (h : PoolInv probe servers s) (hm : s.main ≠ .returned) :
    ∃ a ∈ allActions, ∃ s', step probe s a = some s' := by
  obtain ⟨a, s', hs⟩ := progress h hm
  refine ⟨a, ?_, s', hs⟩
  cases a with
  | main => simp [allActions]
  | closer => simp [allActions]
  | worker i =>
    have hi : i < s.workers.length := by
      by_contra hi
      have : s.workers[i]? = none := List.getElem?_eq_none (by omega)
      simp [step, stepWorker, this] at hs
    have := workers_length_le h
    simp only [allActions, List.mem_cons, List.mem_map, List.mem_range]
    exact Or.inr (Or.inr ⟨i, by omega, rfl⟩)

/-- The scheduler that picks the first enabled action runs the call to its
return, given fuel for the measure. -/
theorem runFirstEnabled_returns {probe : Probe} {servers : List String} (fuel : Nat) (s : Pool)
    (h : Reachable probe servers s) (hf : s.measure ≤ fuel) :
    Reachable probe servers (runFirstEnabled probe fuel s) ∧
      (runFirstEnabled probe fuel s).main = .returned := by
  induction fuel generalizing s with
  | zero =>
    have hinv := poolInv_of_reachable h
    by_cases hm : s.main = .returned
    · exact ⟨h, hm⟩
    · obtain ⟨a, s', hs⟩ := progress hinv hm
      have := measure_step hinv (step_sound hs)
      omega
  | succ fuel ih =>
    have hinv := poolInv_of_reachable h
    simp only [runFirstEnabled]
    cases hfs : allActions.findSome? (step probe s) with
    | none =>
      simp only
      by_cases hm : s.main = .returned
      · exact ⟨h, hm⟩
      · obtain ⟨a, ha, s', hs⟩ := progress_allActions hinv hm
        have := List.findSome?_eq_none_iff.1 hfs a ha
        rw [hs] at this; cases this
    | some s' =>
      simp only
      obtain ⟨a, -, hs⟩ := List.exists_of_findSome?_eq_some hfs
      have := measure_step hinv (step_sound hs)
      exact ih s' (reachable_step h hs) (by omega)

/-- The state in which the call returns under the first-enabled scheduler. -/
theorem exists_returned (probe : Probe) (servers : List String) :
    ∃ s, Reachable probe servers s ∧ s.main = .returned :=
  ⟨_, runFirstEnabled_returns (Pool.init servers).measure _ (reachable_init probe servers) le_rfl⟩

/-- What the caller returns. -/
theorem returned_facts {probe : Probe} {servers : List String} {s : Pool}
    (h : PoolInv probe servers s) (hm : s.main = .returned) :
    s.healthChecks.Perm (servers.filterMap (okRecord probe)) ∧
      s.logged.Perm (servers.filter (probeFails probe)) ∧
      s.healthChecks.length + s.logged.length = servers.length ∧
      s.dequeued.map Prod.snd = servers ∧ s.probed.Perm s.dequeued := by
  obtain ⟨hcl, hres⟩ := h.afterReturn hm
  obtain ⟨-, -, hq, hp, hsd, hpf⟩ := closer_facts h (Or.inr (h.closedIff.1 hcl))
  refine ⟨?_, ?_, ?_, ?_, ?_⟩
  · rw [List.perm_iff_count]
    intro x
    have := h.records x
    simpa [hq, hp, hsd, hres] using this
  · rw [List.perm_iff_count]
    intro a
    have := h.failures a
    simpa [hq, hp] using this
  · have := h.count
    simpa [hq, hp, hsd, hres] using this
  · have := h.queue
    simpa [hq] using this
  · apply perm_of_count _
    intro p
    have := h.probedOnce p
    simpa [hpf] using this

/-! ## The claims -/

/-- C1: `aggregateResults` is last-write-wins per key.  For every list of
records and every `(application, version)` pair that occurs in it, the list
splits at the last record `hc` carrying the pair, and the leaf stored at
`[application][version]` holds the rate `successCount / requestCount` of that
record alone, whatever the earlier records were. -/
theorem aggregateResults_last_write_wins (results : List HealthCheck) (a v : String)
    (hocc : ∃ x ∈ results, x.Application = a ∧ x.Version = v) :
    ∃ pre hc post, results = pre ++ hc :: post ∧ hc.Application = a ∧ hc.Version = v ∧
      (∀ x ∈ post, ¬ (x.Application = a ∧ x.Version = v)) ∧
      reportAt (aggregateResults results) a v =
        some ⟨a, v, Float64.div (Float64.ofInt hc.SuccessCount)
          (Float64.ofInt hc.RequestCount)⟩ := by
  obtain ⟨pre, hc, post, he, h1, h2, h3⟩ := exists_last_occurrence results a v hocc
  refine ⟨pre, hc, post, he, h1, h2, h3, ?_⟩
  subst h1 h2 he
  exact reportAt_last [] pre post hc h3

/-- The records `{A,v1,req=10,succ=5}`, `{A,v1,req=4,succ=4}`: the pair occurs,
the leaf holds the rate of one record of the list, and that rate is
`1.0 = 2^52 * 2^-52`, the rate of the second record. -/
theorem aggregateResults_last_write_wins_witness :
    (∃ x ∈ [(⟨"A", "v1", 0, 10, 5, 5⟩ : HealthCheck), ⟨"A", "v1", 0, 4, 0, 4⟩],
        x.Application = "A" ∧ x.Version = "v1") ∧
      (∃ pre hc post,
        [(⟨"A", "v1", 0, 10, 5, 5⟩ : HealthCheck), ⟨"A", "v1", 0, 4, 0, 4⟩] = pre ++ hc :: post ∧
        hc.Application = "A" ∧ hc.Version = "v1" ∧
        (∀ x ∈ post, ¬ (x.Application = "A" ∧ x.Version = "v1")) ∧
        reportAt (aggregateResults [⟨"A", "v1", 0, 10, 5, 5⟩, ⟨"A", "v1", 0, 4, 0, 4⟩]) "A" "v1" =
          some ⟨"A", "v1", Float64.div (Float64.ofInt hc.SuccessCount)
            (Float64.ofInt hc.RequestCount)⟩) ∧
      reportAt (aggregateResults [⟨"A", "v1", 0, 10, 5, 5⟩, ⟨"A", "v1", 0, 4, 0, 4⟩]) "A" "v1"
        = some ⟨"A", "v1", Float64.fin false 4503599627370496 (-52)⟩ :=
  ⟨⟨⟨"A", "v1", 0, 10, 5, 5⟩, by decide, by decide⟩,
    aggregateResults_last_write_wins _ "A" "v1" ⟨⟨"A", "v1", 0, 10, 5, 5⟩, by decide, by decide⟩,
    by decide⟩

/-- C2: the report has a leaf at `[a][v]` exactly when some record has
application `a` and version `v`; an application key exists exactly when some
record has it; keys are stored once, so the number of leaves is the number of
distinct pairs of the input; and the two `svc` records give one application
key with the two leaves `1.0` (rate `0.95`) and `2.0` (rate `1.0`). -/
theorem aggregateResults_entries :
    (∀ results : List HealthCheck,
      (∀ a v, (reportAt (aggregateResults results) a v).isSome ↔
        ∃ x ∈ results, x.Application = a ∧ x.Version = v) ∧
      (∀ a, ((aggregateResults results).lookup a).isSome ↔
        ∃ x ∈ results, x.Application = a) ∧
      (aggregateResults results).keys.Nodup ∧
      (∀ a m, (aggregateResults results).lookup a = some (some m) → m.keys.Nodup) ∧
      leafCount (aggregateResults results) = (results.map HealthCheck.key).dedup.length) ∧
    aggregateResults [⟨"svc", "1.0", 0, 100, 5, 95⟩, ⟨"svc", "2.0", 0, 50, 0, 50⟩] =
      [("svc", some [("1.0", ⟨"svc", "1.0", Float64.fin false 8556839292003942 (-53)⟩),
                     ("2.0", ⟨"svc", "2.0", Float64.fin false 4503599627370496 (-52)⟩)])] := by
  refine ⟨fun results => ⟨reportAt_isSome_iff results, lookup_aggregateLoop_isSome_iff results,
    ?_, ?_, leafCount_aggregateResults results⟩, by decide⟩
  · exact (reportInv_aggregateLoop reportInv_nil results).1
  · intro a m hl
    obtain ⟨m', hm', -, hk, -⟩ := (reportInv_aggregateLoop reportInv_nil results).2 a _ hl
    cases hm'
    exact hk

/-- C3: in every execution of `fetchHealthChecks`, under every interleaving of
the goroutines, the returned slice is a permutation of the records of the
addresses whose probe of `"http://" + address + "/healthz"` succeeds, one per
occurrence in the list; its length is the number of addresses minus the number
of failing probes; the failing addresses appear in the log only; and the call
does return. -/
theorem fetchHealthChecks_returns_successes (probe : Probe) (servers : List String) :
    (∃ s, Reachable probe servers s ∧ s.main = .returned) ∧
    ∀ s, Reachable probe servers s → s.main = .returned →
      s.healthChecks.Perm
        (servers.filterMap fun address =>
          match probe ("http://" ++ address ++ "/healthz") with
          | (hc, none) => some hc
          | (_, some _) => none) ∧
      s.healthChecks.length = servers.length -
        (servers.filter fun address =>
          (probe ("http://" ++ address ++ "/healthz")).2.isSome).length ∧
      s.logged.Perm
        (servers.filter fun address =>
          (probe ("http://" ++ address ++ "/healthz")).2.isSome) := by
  have hok : (fun address =>
      match probe ("http://" ++ address ++ "/healthz") with
      | (hc, none) => some hc
      | (_, some _) => none) = okRecord probe := rfl
  have hfail : (fun address => (probe ("http://" ++ address ++ "/healthz")).2.isSome)
      = probeFails probe := rfl
  rw [hok, hfail]
  refine ⟨exists_returned probe servers, ?_⟩
  intro s hr hm
  obtain ⟨h1, h2, h3, -, -⟩ := returned_facts (poolInv_of_reachable hr) hm
  refine ⟨h1, ?_, h2⟩
  have := h2.length_eq
  omega

/-- C4 as stated fails: a 200 response with the body `{}` carries none of the
six fields, yet `checkHealth` returns the zero record with a `nil` error. -/
theorem checkHealth_empty_object_counterexample :
    checkHealth (fun _ => .ok ⟨200, some (.object [])⟩) "http://a/healthz"
        = (HealthCheck.zero, none) ∧
      wellFormedRecord (some (.object [])) = false ∧
      ¬ ((checkHealth (fun _ => .ok ⟨200, some (.object [])⟩) "http://a/healthz").2 = none ↔
          ∃ resp, (fun _ => .ok ⟨200, some (.object [])⟩ : HttpClient) "http://a/healthz"
              = .ok resp ∧ resp.StatusCode = 200 ∧ wellFormedRecord resp.Body = true) := by
  refine ⟨by decide, by decide, ?_⟩
  intro h
  obtain ⟨resp, hresp, -, hwf⟩ := h.1 (by decide)
  simp only [Except.ok.injEq] at hresp
  subst hresp
  revert hwf
  decide

/-- C4, amended: `checkHealth` returns a record with a `nil` error exactly when
the GET succeeds, the status is 200 and the body decodes without error: the
body is `null`, or an object none of whose members has a value of the wrong
type for the field its key names.  The six fields need not be present: a field
of the record is the value of the last member for it that carries one, and
zero when the field is absent or `null`.  Every other case (network error,
non-200 status, a body that is not JSON, a value that is neither an object nor
`null`, a member of the wrong type) returns its error with the zero record. -/
theorem checkHealth_spec (client : HttpClient) (url : String) :
    (∀ hc, checkHealth client url = (hc, none) ↔
      ∃ resp, client url = .ok resp ∧ resp.StatusCode = 200 ∧
        jsonDecode resp.Body = .ok hc) ∧
    (∀ hc, checkHealth client url = (hc, none) ↔
      ∃ resp, client url = .ok resp ∧ resp.StatusCode = 200 ∧
        ((resp.Body = some .null ∧ hc = HealthCheck.zero) ∨
          ∃ members, resp.Body = some (.object members) ∧
            (∀ m ∈ members, memberAccepted m.1 m.2 = true) ∧ hc = recordOf members)) ∧
    (∀ hc e, checkHealth client url = (hc, some e) → hc = HealthCheck.zero) ∧
    (∀ err, client url = .error err →
      checkHealth client url = (HealthCheck.zero, some (.getFailed url err))) ∧
    (∀ resp, client url = .ok resp → resp.StatusCode ≠ 200 →
      checkHealth client url = (HealthCheck.zero, some (.non200 url resp.StatusCode))) ∧
    (∀ resp err, client url = .ok resp → resp.StatusCode = 200 →
      jsonDecode resp.Body = .error err →
      checkHealth client url = (HealthCheck.zero, some (.decodeFailed url err))) ∧
    (∀ resp, client url = .ok resp → resp.StatusCode = 200 → resp.Body = none →
      ∃ err, checkHealth client url = (HealthCheck.zero, some (.decodeFailed url err))) ∧
    (∀ resp j, client url = .ok resp → resp.StatusCode = 200 → resp.Body = some j →
      j ≠ .null → (∀ members, j ≠ .object members) →
      ∃ err, checkHealth client url = (HealthCheck.zero, some (.decodeFailed url err))) ∧
    (∀ resp members, client url = .ok resp → resp.StatusCode = 200 →
      resp.Body = some (.object members) →
      (∃ m ∈ members, memberAccepted m.1 m.2 = false) →
      ∃ err, checkHealth client url = (HealthCheck.zero, some (.decodeFailed url err))) ∧
    (∀ key v, memberAccepted key v = true ↔
      fieldOfKey key = none ∨ v = .null ∨
      ((fieldOfKey key = some .application ∨ fieldOfKey key = some .version) ∧
        ∃ s, v = .string s) ∨
      ((fieldOfKey key = some .uptime ∨ fieldOfKey key = some .requestCount ∨
          fieldOfKey key = some .errorCount ∨ fieldOfKey key = some .successCount) ∧
        ∃ n : Int, v = .number (some n) ∧ -(2 ^ 63) ≤ n ∧ n < 2 ^ 63)) ∧
    (∀ key f, fieldOfKey key = some f ↔ foldName f.name = foldName key) ∧
    (fieldOfKey "application" = some .application ∧ fieldOfKey "version" = some .version ∧
      fieldOfKey "uptime" = some .uptime ∧ fieldOfKey "requestCount" = some .requestCount ∧
      fieldOfKey "errorCount" = some .errorCount ∧
      fieldOfKey "successCount" = some .successCount ∧
      fieldOfKey "RequestCount" = some .requestCount ∧
      fieldOfKey "REQUESTCOUNT" = some .requestCount ∧
      fieldOfKey "request_count" = none ∧ fieldOfKey "status" = none) ∧
    (∀ f dflt, stringOf f dflt [] = dflt) ∧
    (∀ f dflt members key v, stringOf f dflt (members ++ [(key, v)]) =
      if fieldOfKey key = some f then v.stringOr (stringOf f dflt members)
      else stringOf f dflt members) ∧
    (∀ f dflt, intOf f dflt [] = dflt) ∧
    (∀ f dflt members key v, intOf f dflt (members ++ [(key, v)]) =
      if fieldOfKey key = some f then v.integerOr (intOf f dflt members)
      else intOf f dflt members) ∧
    (∀ s dflt, (Json.string s).stringOr dflt = s) ∧
    (∀ (v : Json) (dflt : String), (∀ s, v ≠ .string s) → v.stringOr dflt = dflt) ∧
    (∀ n dflt, (Json.number (some n)).integerOr dflt = n) ∧
    (∀ (v : Json) (dflt : Int), (∀ n, v ≠ .number (some n)) → v.integerOr dflt = dflt) ∧
    recordOf [] = HealthCheck.zero ∧
    (∀ key, recordOf [(key, .null)] = HealthCheck.zero) ∧
    (∀ hc : HealthCheck, isInt64 hc.Uptime = true → isInt64 hc.RequestCount = true →
      isInt64 hc.ErrorCount = true → isInt64 hc.SuccessCount = true →
      client url = .ok ⟨200, healthzBody hc⟩ → checkHealth client url = (hc, none)) ∧
    jsonDecode (some (.object [])) = .ok HealthCheck.zero := by
  obtain ⟨e1, e2, e3⟩ := checkHealth_error_cases client url
  have hiff := checkHealth_ok_iff client url
  refine ⟨hiff, ?_, checkHealth_error_zero client url, e1, e2, e3, ?_, ?_, ?_,
    memberAccepted_iff, fieldOfKey_eq_some_iff, by decide, stringOf_nil, stringOf_snoc,
    intOf_nil, intOf_snoc, fun _ _ => rfl, ?_, fun _ _ => rfl, ?_, rfl, ?_, ?_, rfl⟩
  · intro hc
    rw [hiff]
    constructor
    · rintro ⟨resp, h1, h2, h3⟩
      exact ⟨resp, h1, h2, (jsonDecode_ok_iff _ _).1 h3⟩
    · rintro ⟨resp, h1, h2, h3⟩
      exact ⟨resp, h1, h2, (jsonDecode_ok_iff _ _).2 h3⟩
  · intro resp hget hst hbody
    exact ⟨_, e3 resp _ hget hst (by rw [hbody]; rfl)⟩
  · intro resp j hget hst hbody hnull hobj
    cases j with
    | null => exact absurd rfl hnull
    | object members => exact absurd rfl (hobj members)
    | bool b => exact ⟨_, e3 resp _ hget hst (by rw [hbody]; rfl)⟩
    | number n => exact ⟨_, e3 resp _ hget hst (by rw [hbody]; rfl)⟩
    | string t => exact ⟨_, e3 resp _ hget hst (by rw [hbody]; rfl)⟩
    | array items => exact ⟨_, e3 resp _ hget hst (by rw [hbody]; rfl)⟩
  · intro resp members hget hst hbody hrej
    obtain ⟨err, herr⟩ := decodeMembers_rejected HealthCheck.zero members hrej
    exact ⟨err, e3 resp err hget hst (by rw [hbody]; exact herr)⟩
  · intro v dflt hv
    cases v with
    | string t => exact absurd rfl (hv t)
    | _ => rfl
  · intro v dflt hv
    rcases v with _ | _ | (_ | n) | _ | _ | _
    all_goals first | rfl | exact absurd rfl (hv n)
  · intro key
    simp [recordOf, stringOf, intOf, Json.isString, Json.isInteger, HealthCheck.zero]
  · intro hc h1 h2 h3 h4 hget
    exact (hiff hc).2 ⟨_, hget, rfl, jsonDecode_healthzBody hc h1 h2 h3 h4⟩

/-- C5: a record with `requestCount = 0` that is the last one of its pair is
neither rejected nor clamped: the leaf exists and its rate is NaN when
`successCount = 0` and an infinity otherwise, never a finite number. -/
theorem aggregateResults_zero_requests (pre post : List HealthCheck) (hc : HealthCheck)
    (hzero : hc.RequestCount = 0)
    (hlast : ∀ x ∈ post, ¬ (x.Application = hc.Application ∧ x.Version = hc.Version)) :
    ∃ r, reportAt (aggregateResults (pre ++ hc :: post)) hc.Application hc.Version = some r ∧
      r.SuccessRate =
        (if hc.SuccessCount = 0 then Float64.nan
         else Float64.inf (decide (hc.SuccessCount < 0))) ∧
      r.SuccessRate.isFinite = false := by
  refine ⟨leafOf hc, reportAt_last [] pre post hc hlast, ?_⟩
  have hrate : (leafOf hc).SuccessRate =
      (if hc.SuccessCount = 0 then Float64.nan
       else Float64.inf (decide (hc.SuccessCount < 0))) := by
    simp only [leafOf, successRate, hzero]
    by_cases hs : hc.SuccessCount = 0
    · rw [hs, if_pos rfl]; exact Float64.div_zero_zero
    · rw [if_neg hs]; exact Float64.div_zero_of_ne_zero _ hs
  refine ⟨hrate, ?_⟩
  rw [hrate]
  split <;> rfl

/-- A record `{A,v1,req=0,succ=3}` after `{A,v1,req=10,succ=5}` leaves the
rate `+Inf`. -/
theorem aggregateResults_zero_requests_witness :
    (⟨"A", "v1", 0, 0, 0, 3⟩ : HealthCheck).RequestCount = 0 ∧
      ∃ r, reportAt (aggregateResults
          ([⟨"A", "v1", 0, 10, 5, 5⟩] ++ ⟨"A", "v1", 0, 0, 0, 3⟩ :: [])) "A" "v1" = some r ∧
        r.SuccessRate = Float64.inf false ∧ r.SuccessRate.isFinite = false :=
  ⟨rfl, aggregateResults_zero_requests [⟨"A", "v1", 0, 10, 5, 5⟩] [] ⟨"A", "v1", 0, 0, 0, 3⟩
    rfl (by simp)⟩

/-- C6 as stated fails: for a file with CRLF line endings the first address
keeps its carriage return, and spaces around an interior line are kept. -/
theorem readServerList_crlf_counterexample :
    readServerList (fun _ => .ok "a\r\nb\r\n".toList) "server.txt"
        = .ok ["a\r".toList, "b".toList] ∧
      endsWithSpace "a\r".toList = true ∧
      readServerList (fun _ => .ok "a\n b \nc\n".toList) "server.txt"
        = .ok ["a".toList, " b ".toList, "c".toList] ∧
      beginsWithSpace " b ".toList = true ∧
      ¬ (∀ addr ∈ ["a\r".toList, "b".toList],
          beginsWithSpace addr = false ∧ endsWithSpace addr = false) := by
  refine ⟨rfl, by decide, rfl, by decide, by decide⟩

/-- C6, amended: `readServerList` returns one address per line of the content
trimmed as a whole: the first address does not begin and the last address does
not end with white space, and no address contains a newline; white space next
to an interior line break stays in the address. -/
theorem readServerList_trimmed (readFile : String → Except String (List Char))
    (filename : String) (data : List Char) (hread : readFile filename = .ok data) :
    ∃ first rest last, readServerList readFile filename = .ok (first :: rest) ∧
      (first :: rest).getLast? = some last ∧
      beginsWithSpace first = false ∧ endsWithSpace last = false ∧
      (∀ addr ∈ first :: rest, '\n' ∉ addr) ∧
      ['\n'].intercalate (first :: rest) = TrimSpace data := by
  obtain ⟨first, rest, hs, hhead⟩ := head_Split (TrimSpace data) '\n'
  have hb := beginsWithSpace_TrimSpace data
  have he := endsWithSpace_TrimSpace data
  refine ⟨first, rest, (first :: rest).getLast (by simp), ?_, ?_, ?_, ?_, ?_, ?_⟩
  · simp [readServerList, hread, hs]
  · exact List.getLast?_eq_getLast _ _
  · unfold beginsWithSpace at hb ⊢
    rcases hhead with h | h
    · rw [h]
    · rw [h]; exact hb
  · have hl : (Split (TrimSpace data) '\n').getLast? = some ((first :: rest).getLast (by simp)) := by
      rw [hs]; exact List.getLast?_eq_getLast _ _
    unfold endsWithSpace at he ⊢
    rcases getLast_Split _ _ _ hl with h | h
    · rw [h]
    · rw [h]; exact he
  · rw [← hs]; exact not_mem_of_mem_Split _ _
  · rw [← hs]; exact intercalate_Split _ _

/-- The file `" a \r\n b \n"` gives the addresses `"a \r"` and `" b"`. -/
theorem readServerList_trimmed_witness :
    (fun _ => .ok " a \r\n b \n".toList : String → Except String (List Char)) "server.txt"
        = .ok " a \r\n b \n".toList ∧
      ∃ first rest last,
        readServerList (fun _ => .ok " a \r\n b \n".toList) "server.txt" = .ok (first :: rest) ∧
        (first :: rest).getLast? = some last ∧
        beginsWithSpace first = false ∧ endsWithSpace last = false ∧
        (∀ addr ∈ first :: rest, '\n' ∉ addr) ∧
        ['\n'].intercalate (first :: rest) = TrimSpace " a \r\n b \n".toList :=
  ⟨rfl, readServerList_trimmed _ "server.txt" _ rfl⟩

/-- C7: for records with pairwise distinct `(application, version)` pairs the
report does not depend on the order of the records: every permutation of the
list gives the same application keys and the same leaves. -/
theorem aggregateResults_perm (results results' : List HealthCheck)
    (hdistinct : (results.map HealthCheck.key).Nodup) (hperm : results'.Perm results) :
    (∀ a, ((aggregateResults results').lookup a).isSome
        = ((aggregateResults results).lookup a).isSome) ∧
      (∀ a v, reportAt (aggregateResults results') a v
        = reportAt (aggregateResults results) a v) ∧
      sameReport (aggregateResults results') (aggregateResults results) := by
  have h1 : ∀ a, ((aggregateResults results').lookup a).isSome
      = ((aggregateResults results).lookup a).isSome := by
    intro a
    rw [Bool.eq_iff_iff, lookup_aggregateLoop_isSome_iff, lookup_aggregateLoop_isSome_iff]
    constructor
    · rintro ⟨x, hx, hxa⟩; exact ⟨x, hperm.mem_iff.1 hx, hxa⟩
    · rintro ⟨x, hx, hxa⟩; exact ⟨x, hperm.mem_iff.2 hx, hxa⟩
  exact ⟨h1, reportAt_perm hdistinct hperm, h1, reportAt_perm hdistinct hperm⟩

/-- Two records with different versions, swapped. -/
theorem aggregateResults_perm_witness :
    (([⟨"svc", "1.0", 0, 100, 5, 95⟩, ⟨"svc", "2.0", 0, 50, 0, 50⟩] :
        List HealthCheck).map HealthCheck.key).Nodup ∧
      ([⟨"svc", "2.0", 0, 50, 0, 50⟩, ⟨"svc", "1.0", 0, 100, 5, 95⟩] : List HealthCheck).Perm
        [⟨"svc", "1.0", 0, 100, 5, 95⟩, ⟨"svc", "2.0", 0, 50, 0, 50⟩] ∧
      sameReport
        (aggregateResults [⟨"svc", "2.0", 0, 50, 0, 50⟩, ⟨"svc", "1.0", 0, 100, 5, 95⟩])
        (aggregateResults [⟨"svc", "1.0", 0, 100, 5, 95⟩, ⟨"svc", "2.0", 0, 50, 0, 50⟩]) :=
  ⟨by decide, List.Perm.swap _ _ _,
    (aggregateResults_perm _ _ (by decide) (List.Perm.swap _ _ _)).2.2⟩

/-- C8: for every server list and every interleaving of the goroutines of
`fetchHealthChecks`: the addresses are received from `serverChan` in list
order, each by one worker of the ten, and each received address is probed once
by the worker that received it; a worker that has not exited can always take
its step, in particular a send on `results` never blocks because the records
sent never exceed its capacity; `results` is closed only when all ten workers
have exited; while the caller has not returned some goroutine can step; every
execution has at most `4 * N + 34` steps; a returned state exists, nothing can
run after it, and in it every address of the list has been received and probed
exactly once. -/
theorem fetchHealthChecks_pool (probe : Probe) (servers : List String) :
    (∀ s, Reachable probe servers s →
      s.dequeued.map Prod.snd ++ s.serverChan = servers ∧
      (∀ p, s.probed.count p + (probingFrom 0 s.workers).count p = s.dequeued.count p) ∧
      (∀ p ∈ s.dequeued, p.1 < workerCount) ∧
      s.workers.length ≤ workerCount ∧
      s.resultsCap = servers.length ∧
      (sending s.workers).length + s.results.length + s.healthChecks.length ≤ servers.length ∧
      (∀ (i : Nat) (w : Worker), s.workers[i]? = some w → w ≠ Worker.exited →
        ∃ s', step probe s (.worker i) = some s') ∧
      (s.resultsClosed = true →
        s.workers.length = workerCount ∧ ∀ w ∈ s.workers, w = Worker.exited) ∧
      (s.main ≠ .returned → ∃ a s', step probe s a = some s') ∧
      (s.main = .returned →
        (∀ a, step probe s a = none) ∧
        s.dequeued.map Prod.snd = servers ∧ s.probed.Perm s.dequeued)) ∧
    (∀ sched s, exec probe (Pool.init servers) sched = some s →
      sched.length ≤ 4 * servers.length + 3 * workerCount + 4) ∧
    (∃ s, Reachable probe servers s ∧ s.main = .returned) := by
  refine ⟨?_, ?_, exists_returned probe servers⟩
  · intro s hr
    have h := poolInv_of_reachable hr
    have hlen := workers_length_le h
    refine ⟨h.queue, h.probedOnce, ?_, hlen, h.cap, ?_, ?_, ?_, ?_, ?_⟩
    · intro p hp
      have := h.workerIdx p hp
      omega
    · have := h.count
      omega
    · intro i w hw hne
      exact worker_enabled h hw hne
    · intro hcl
      obtain ⟨h1, h2, -⟩ := closer_facts h (Or.inr (h.closedIff.1 hcl))
      exact ⟨h1, h2⟩
    · exact progress h
    · intro hm
      obtain ⟨-, -, -, h4, h5⟩ := returned_facts h hm
      exact ⟨returned_terminal h hm, h4, h5⟩
  · intro sched s he
    have := exec_length_le (poolInv_init probe servers) he
    rw [measure_init] at this
    omega

/-- C9: after every number `k` of iterations of the loop of `aggregateResults`,
and so in the returned report, every leaf stored at `[a][v]` has `Application`
`a` and `Version` `v`, and every application key holds a map that is neither
`nil` nor empty. -/
theorem aggregateResults_invariant (results : List HealthCheck) (k : Nat) :
    (∀ a v r, reportAt (aggregateLoop [] (results.take k)) a v = some r →
      r.Application = a ∧ r.Version = v) ∧
    (∀ a om, (aggregateLoop [] (results.take k)).lookup a = some om →
      ∃ m : VersionMap, om = some m ∧ m ≠ []) ∧
    aggregateLoop [] (results.take 0) = [] ∧
    aggregateLoop [] (results.take results.length) = aggregateResults results ∧
    (∀ a v r, reportAt (aggregateResults results) a v = some r →
      r.Application = a ∧ r.Version = v) ∧
    (∀ a om, (aggregateResults results).lookup a = some om →
      ∃ m : VersionMap, om = some m ∧ m ≠ []) := by
  have hk := reportInv_aggregateLoop reportInv_nil (results.take k)
  have hall := reportInv_aggregateLoop reportInv_nil results
  refine ⟨fun a v r h => reportAt_of_inv hk h, ?_, rfl, by rw [List.take_length]; rfl,
    fun a v r h => reportAt_of_inv hall h, ?_⟩
  · intro a om h
    obtain ⟨m, hm, hne, -⟩ := hk.2 a om h
    exact ⟨m, hm, hne⟩
  · intro a om h
    obtain ⟨m, hm, hne, -⟩ := hall.2 a om h
    exact ⟨m, hm, hne⟩

/-- C10: for every readable file content `readServerList` returns a non-empty
list whose elements joined with `"\n"` are the content between its leading and
trailing white space; a content of white space only gives the single empty
address; and a blank interior line is returned as an empty address. -/
theorem readServerList_lines (readFile : String → Except String (List Char))
    (filename : String) (data : List Char) (hread : readFile filename = .ok data) :
    ∃ addrs, readServerList readFile filename = .ok addrs ∧ addrs ≠ [] ∧
      (∃ lead trail, (∀ x ∈ lead, isSpace x = true) ∧ (∀ x ∈ trail, isSpace x = true) ∧
        data = lead ++ ['\n'].intercalate addrs ++ trail) ∧
      beginsWithSpace (['\n'].intercalate addrs) = false ∧
      endsWithSpace (['\n'].intercalate addrs) = false ∧
      ((∀ x ∈ data, isSpace x = true) → addrs = [[]]) ∧
      (∀ xs ys, ['\n'].intercalate addrs = xs ++ '\n' :: '\n' :: ys →
        addrs = Split xs '\n' ++ [] :: Split ys '\n') := by
  have hj := intercalate_Split (TrimSpace data) '\n'
  refine ⟨Split (TrimSpace data) '\n', by simp [readServerList, hread], Split_ne_nil _ _,
    ?_, ?_, ?_, ?_, ?_⟩
  · rw [hj]; exact TrimSpace_decomp data
  · rw [hj]; exact beginsWithSpace_TrimSpace data
  · rw [hj]; exact endsWithSpace_TrimSpace data
  · intro h
    rw [TrimSpace_of_all_space data h]
    rfl
  · intro xs ys h
    rw [hj] at h
    rw [h, Split_append_sep]
    congr 1

/-- The file `"a\n\nb\n"` gives the addresses `a`, the empty address and `b`. -/
theorem readServerList_lines_witness :
    (fun _ => .ok "a\n\nb\n".toList : String → Except String (List Char)) "server.txt"
        = .ok "a\n\nb\n".toList ∧
      readServerList (fun _ => .ok "a\n\nb\n".toList) "server.txt"
        = .ok ["a".toList, [], "b".toList] ∧
      readServerList (fun _ => .ok " \n\t".toList) "server.txt" = .ok [[]] ∧
      ∃ addrs, readServerList (fun _ => .ok "a\n\nb\n".toList) "server.txt" = .ok addrs ∧
        addrs ≠ [] ∧
        (∃ lead trail, (∀ x ∈ lead, isSpace x = true) ∧ (∀ x ∈ trail, isSpace x = true) ∧
          "a\n\nb\n".toList = lead ++ ['\n'].intercalate addrs ++ trail) ∧
        beginsWithSpace (['\n'].intercalate addrs) = false ∧
        endsWithSpace (['\n'].intercalate addrs) = false ∧
        ((∀ x ∈ "a\n\nb\n".toList, isSpace x = true) → addrs = [[]]) ∧
        (∀ xs ys, ['\n'].intercalate addrs = xs ++ '\n' :: '\n' :: ys →
          addrs = Split xs '\n' ++ [] :: Split ys '\n') :=
  ⟨rfl, rfl, rfl, readServerList_lines _ "server.txt" _ rfl⟩

end HealthCheckTool
